import Mathlib

/-!
Shallow embedding of `src/flight_planner.py` (FlyWise flight route and fare
comparator) together with proofs about its specification.

Conventions of the embedding:
* Python `int` is `Int`; times are minutes since midnight, prices are integers.
* Python functions that can raise are modelled with `Except String`.
* The `heapq`-based priority queues are modelled as lists kept sorted by the
  tuple ordering Python uses; popping takes the head, which is the minimum,
  matching the observable pop order of a binary min-heap.  Python compares
  heap entries with `<`; comparing two `Flight` dataclass values raises
  `TypeError` (the dataclass defines no ordering), so the state comparison is
  a function into `Option Ordering` where `none` models `TypeError`, and a
  failed comparison aborts the search with `SearchResult.error`, just as the
  exception aborts the Python search.
* The Python `while heap:` loop is modelled with an explicit fuel parameter;
  `SearchResult.fuelOut` marks fuel exhaustion and is proved unreachable for
  the fuel used by the top-level entry points (under the data invariants the
  loader establishes).
-/

set_option autoImplicit false

namespace FlightPlanner

/-- `MIN_LAYOVER_MINUTES` from the source. -/
def MIN_LAYOVER_MINUTES : Int := 60

/-- The `Flight` frozen dataclass: one scheduled leg with per-cabin prices. -/
structure Flight where
  origin : String
  dest : String
  flight_number : String
  depart : Int
  arrive : Int
  economy : Int
  business : Int
  first : Int
deriving DecidableEq, Repr

/-- `Flight.price_for`: cabin-keyed price lookup; unknown cabins raise
`ValueError` in the source, modelled as `Except.error`. -/
def Flight.price_for (f : Flight) (cabin : String) : Except String Int :=
  if cabin = "economy" then Except.ok f.economy
  else if cabin = "business" then Except.ok f.business
  else if cabin = "first" then Except.ok f.first
  else Except.error ("Unknown cabin: " ++ cabin)

/-- The `Itinerary` dataclass: an ordered list of flights. -/
structure Itinerary where
  flights : List Flight
deriving DecidableEq, Repr

/-- `Itinerary.total_price`: sum of the per-leg prices for a cabin. -/
def Itinerary.total_price (it : Itinerary) (cabin : String) : Except String Int :=
  it.flights.foldlM (fun acc f => (f.price_for cabin).map (fun p => acc + p)) 0

/-! ### Character-level helpers for the Python string operations -/

/-- `str.strip()` on a character list. -/
def pyStrip (l : List Char) : List Char :=
  ((l.dropWhile Char.isWhitespace).reverse.dropWhile Char.isWhitespace).reverse

/-- Helper for `pySplitOn`: accumulates the current field (reversed). -/
def pySplitOnAux (c : Char) : List Char → List Char → List (List Char)
  | [], acc => [acc.reverse]
  | x :: xs, acc =>
    if x = c then acc.reverse :: pySplitOnAux c xs []
    else pySplitOnAux c xs (x :: acc)

/-- `str.split(sep)` with a one-character separator: keeps empty fields. -/
def pySplitOn (c : Char) (l : List Char) : List (List Char) :=
  pySplitOnAux c l []

/-- Helper for `pySplitWS`: accumulates the current token (reversed). -/
def pySplitWSAux : List Char → List Char → List (List Char)
  | [], acc => if acc.isEmpty then [] else [acc.reverse]
  | x :: xs, acc =>
    if x.isWhitespace then
      if acc.isEmpty then pySplitWSAux xs []
      else acc.reverse :: pySplitWSAux xs []
    else pySplitWSAux xs (x :: acc)

/-- `str.split()` (no separator): splits on whitespace runs, drops empties. -/
def pySplitWS (l : List Char) : List (List Char) :=
  pySplitWSAux l []

/-- Value of a (non-empty) digit string. -/
def digitsVal (l : List Char) : Nat :=
  l.foldl (fun acc c => acc * 10 + (c.toNat - 48)) 0

/-- `int(s)`: strips whitespace, accepts an optional sign followed by one or
more decimal digits, and raises `ValueError` otherwise. -/
def pyInt (l : List Char) : Except String Int :=
  let s := pyStrip l
  match s with
  | '-' :: ds =>
    if ds ≠ [] ∧ ds.all Char.isDigit then Except.ok (-(Int.ofNat (digitsVal ds)))
    else Except.error "invalid literal for int"
  | '+' :: ds =>
    if ds ≠ [] ∧ ds.all Char.isDigit then Except.ok (Int.ofNat (digitsVal ds))
    else Except.error "invalid literal for int"
  | ds =>
    if ds ≠ [] ∧ ds.all Char.isDigit then Except.ok (Int.ofNat (digitsVal ds))
    else Except.error "invalid literal for int"

/-- Decimal digit characters of a natural number. -/
def natChars (n : Nat) : List Char := Nat.toDigits 10 n

/-- Character rendering of a Python `int`. -/
def intChars (n : Int) : List Char :=
  if n < 0 then '-' :: natChars (-n).toNat else natChars n.toNat

/-- `f"{n:02d}"`: pad with a leading zero up to width 2 (after the sign). -/
def pad2 (n : Int) : List Char :=
  let s := intChars n
  if s.length < 2 then '0' :: s else s

/-! ### `parse_time` and `format_time` -/

/-- Body of `parse_time` over character lists. -/
def parseTimeChars (l : List Char) : Except String Int :=
  match pySplitOn ':' (pyStrip l) with
  | [h, m] =>
    match pyInt h, pyInt m with
    | Except.ok hour, Except.ok minute =>
      if 0 ≤ hour ∧ hour < 24 ∧ 0 ≤ minute ∧ minute < 60 then
        Except.ok (hour * 60 + minute)
      else Except.error "Hour or minute out of range"
    | _, _ => Except.error "Invalid hour or minute in time"
  | _ => Except.error "Invalid time format"

/-- `parse_time`: `"HH:MM"` to minutes since midnight. -/
def parse_time (hhmm : String) : Except String Int :=
  parseTimeChars hhmm.data

/-- `format_time`: minutes since midnight to `"HH:MM"` (Python floor
division and modulo). -/
def format_time (minutes : Int) : String :=
  String.mk (pad2 (Int.fdiv minutes 60) ++ ':' :: pad2 (Int.fmod minutes 60))

/-! ### `parse_flight_line_txt` -/

/-- `parse_flight_line_txt`: parses one whitespace-separated record line;
blank lines and `#` comments yield `none`; malformed records raise. -/
def parse_flight_line_txt (line : String) : Except String (Option Flight) :=
  let l := pyStrip line.data
  if l.isEmpty ∨ l.head? = some '#' then Except.ok none
  else
    match pySplitWS l with
    | [origin, dest, num, depart, arrive, econ, biz, first] =>
      match parseTimeChars depart, parseTimeChars arrive with
      | Except.ok depart_min, Except.ok arrive_min =>
        if arrive_min ≤ depart_min then
          Except.error "Arrival must be after departure"
        else
          match pyInt econ, pyInt biz, pyInt first with
          | Except.ok e, Except.ok b, Except.ok f =>
            Except.ok (some
              { origin := String.mk origin
                dest := String.mk dest
                flight_number := String.mk num
                depart := depart_min
                arrive := arrive_min
                economy := e
                business := b
                first := f })
          | _, _, _ => Except.error "invalid literal for int"
      | _, _ => Except.error "Invalid time"
    | parts => Except.error ("Expected 8 fields, got " ++ toString parts.length)

/-! ### Graph construction -/

/-- `Graph = Dict[str, List[Flight]]`, modelled as an association list in
dict insertion order. -/
abbrev Graph : Type := List (String × List Flight)

/-- `graph.get(airport, [])`. -/
def graphGet (g : Graph) (a : String) : List Flight :=
  match g with
  | [] => []
  | (b, fs) :: rest => if b = a then fs else graphGet rest a

/-- One step of `build_graph`: `g.setdefault(f.origin, []).append(f)`. -/
def addFlight : Graph → Flight → Graph
  | [], f => [(f.origin, [f])]
  | (a, fs) :: rest, f =>
    if a = f.origin then (a, fs ++ [f]) :: rest else (a, fs) :: addFlight rest f

/-- `build_graph`: adjacency map from origin airport to its outbound legs. -/
def build_graph (flights : List Flight) : Graph :=
  flights.foldl addFlight []

/-! ### The Python comparison used by the heaps -/

/-- Comparison of Python ints. -/
def cmpInt (a b : Int) : Ordering :=
  if a < b then Ordering.lt else if b < a then Ordering.gt else Ordering.eq

/-- Comparison of Python strings (by character code points). -/
def cmpChars : List Char → List Char → Ordering
  | [], [] => Ordering.eq
  | [], _ :: _ => Ordering.lt
  | _ :: _, [] => Ordering.gt
  | a :: as', b :: bs' =>
    if a.toNat < b.toNat then Ordering.lt
    else if b.toNat < a.toNat then Ordering.gt
    else cmpChars as' bs'

/-- Comparison of two flight paths as Python compares `list[Flight]`:
elementwise equality is fine, but the first unequal pair would need
`Flight < Flight`, which raises `TypeError` (`none`). -/
def cmpFlights : List Flight → List Flight → Option Ordering
  | [], [] => some Ordering.eq
  | [], _ :: _ => some Ordering.lt
  | _ :: _, [] => some Ordering.gt
  | f :: fs, g :: gs => if f = g then cmpFlights fs gs else none

/-- A state of the earliest-arrival heap: `(current_time, airport, path)`. -/
structure EState where
  time : Int
  airport : String
  path : List Flight
deriving DecidableEq, Repr

/-- Python tuple comparison for earliest-arrival heap states. -/
def cmpEState (s t : EState) : Option Ordering :=
  match cmpInt s.time t.time with
  | Ordering.lt => some Ordering.lt
  | Ordering.gt => some Ordering.gt
  | Ordering.eq =>
    match cmpChars s.airport.data t.airport.data with
    | Ordering.lt => some Ordering.lt
    | Ordering.gt => some Ordering.gt
    | Ordering.eq => cmpFlights s.path t.path

/-- A state of the cheapest-price heap:
`(total_price, current_time, airport, path)`. -/
structure CState where
  price : Int
  time : Int
  airport : String
  path : List Flight
deriving DecidableEq, Repr

/-- Python tuple comparison for cheapest-price heap states. -/
def cmpCState (s t : CState) : Option Ordering :=
  match cmpInt s.price t.price with
  | Ordering.lt => some Ordering.lt
  | Ordering.gt => some Ordering.gt
  | Ordering.eq =>
    match cmpInt s.time t.time with
    | Ordering.lt => some Ordering.lt
    | Ordering.gt => some Ordering.gt
    | Ordering.eq =>
      match cmpChars s.airport.data t.airport.data with
      | Ordering.lt => some Ordering.lt
      | Ordering.gt => some Ordering.gt
      | Ordering.eq => cmpFlights s.path t.path

/-! ### Priority queues (sorted-list model of `heapq`) -/

/-- Insert into the earliest-arrival queue, keeping it sorted by the Python
state ordering; `none` models the `TypeError` raised when two tied states
cannot be compared. -/
def epqInsert (s : EState) : List EState → Option (List EState)
  | [] => some [s]
  | t :: ts =>
    match cmpEState t s with
    | none => none
    | some Ordering.lt => Option.map (fun r => t :: r) (epqInsert s ts)
    | some _ => some (s :: t :: ts)

/-- Insert into the cheapest-price queue (same conventions). -/
def cpqInsert (s : CState) : List CState → Option (List CState)
  | [] => some [s]
  | t :: ts =>
    match cmpCState t s with
    | none => none
    | some Ordering.lt => Option.map (fun r => t :: r) (cpqInsert s ts)
    | some _ => some (s :: t :: ts)

/-- The per-leg admission test of both searches:
`f.depart >= current_time if not path else f.depart >= current_time + 60`. -/
def layoverOk (time : Int) (path : List Flight) (f : Flight) : Bool :=
  if path.isEmpty then decide (time ≤ f.depart)
  else decide (time + MIN_LAYOVER_MINUTES ≤ f.depart)

/-- Push every admissible outbound flight of the popped earliest-arrival
state onto the queue (the `for f in graph.get(airport, [])` loop). -/
def epushAll (cur : EState) : List Flight → List EState → Option (List EState)
  | [], q => some q
  | f :: fs, q =>
    if layoverOk cur.time cur.path f then
      match epqInsert ⟨f.arrive, f.dest, cur.path ++ [f]⟩ q with
      | none => none
      | some q2 => epushAll cur fs q2
    else epushAll cur fs q

/-- Push every admissible outbound flight of the popped cheapest-price state
onto the queue; evaluates `f.price_for(cabin)`, which can raise. -/
def cpushAll (cabin : String) (cur : CState) :
    List Flight → List CState → Except String (List CState)
  | [], q => Except.ok q
  | f :: fs, q =>
    if layoverOk cur.time cur.path f then
      match f.price_for cabin with
      | Except.error m => Except.error m
      | Except.ok p =>
        match cpqInsert ⟨cur.price + p, f.arrive, f.dest, cur.path ++ [f]⟩ q with
        | none => Except.error "TypeError: unorderable Flight values"
        | some q2 => cpushAll cabin cur fs q2
    else cpushAll cabin cur fs q

/-! ### The searches -/

/-- Result of a search run. `error` models a raised Python exception,
`notFound` the `None` return, `fuelOut` exhaustion of the model's fuel. -/
inductive SearchResult where
  | found (it : Itinerary)
  | notFound
  | error (msg : String)
  | fuelOut
deriving DecidableEq, Repr

/-- The visited dict lookup (`airport in visited` / `visited[airport]`). -/
def vLookup (v : List (String × Int)) (a : String) : Option Int :=
  match v with
  | [] => none
  | (b, x) :: rest => if b = a then some x else vLookup rest a

/-- `visited[airport] = value`: overwrite in place or append. -/
def vInsert : List (String × Int) → String → Int → List (String × Int)
  | [], a, t => [(a, t)]
  | (b, x) :: rest, a, t =>
    if b = a then (b, t) :: rest else (b, x) :: vInsert rest a t

/-- The stale-entry test: `airport in visited and visited[airport] <= key`. -/
def vSkip (v : List (String × Int)) (a : String) (key : Int) : Bool :=
  match vLookup v a with
  | some w => decide (w ≤ key)
  | none => false

/-- Loop body of `find_earliest_itinerary` with explicit fuel. -/
def findEarliestAux (g : Graph) (dest : String) :
    Nat → List EState → List (String × Int) → SearchResult
  | 0, _, _ => SearchResult.fuelOut
  | _ + 1, [], _ => SearchResult.notFound
  | fuel + 1, st :: rest, visited =>
    if st.airport = dest ∧ st.path ≠ [] then SearchResult.found ⟨st.path⟩
    else if vSkip visited st.airport st.time then
      findEarliestAux g dest fuel rest visited
    else
      match epushAll st (graphGet g st.airport) rest with
      | none => SearchResult.error "TypeError: unorderable Flight values"
      | some q => findEarliestAux g dest fuel q (vInsert visited st.airport st.time)

/-- Loop body of `find_cheapest_itinerary` with explicit fuel. -/
def findCheapestAux (g : Graph) (dest cabin : String) :
    Nat → List CState → List (String × Int) → SearchResult
  | 0, _, _ => SearchResult.fuelOut
  | _ + 1, [], _ => SearchResult.notFound
  | fuel + 1, st :: rest, visited =>
    if st.airport = dest ∧ st.path ≠ [] then SearchResult.found ⟨st.path⟩
    else if vSkip visited st.airport st.price then
      findCheapestAux g dest cabin fuel rest visited
    else
      match cpushAll cabin st (graphGet g st.airport) rest with
      | Except.error m => SearchResult.error m
      | Except.ok q => findCheapestAux g dest cabin fuel q (vInsert visited st.airport st.price)

/-- Sum of the outdegrees the search can ever expand. -/
def sumOutdegs (g : Graph) : Nat :=
  (((g.map Prod.fst).dedup).map (fun a => (graphGet g a).length)).sum

/-- Fuel that is proved sufficient for the searches to run to completion. -/
def searchFuel (g : Graph) : Nat := 2 + sumOutdegs g

/-- `find_earliest_itinerary`. -/
def find_earliest_itinerary (g : Graph) (start dest : String)
    (earliest_departure : Int) : SearchResult :=
  findEarliestAux g dest (searchFuel g) [⟨earliest_departure, start, []⟩] []

/-- `find_cheapest_itinerary`. -/
def find_cheapest_itinerary (g : Graph) (start dest : String)
    (earliest_departure : Int) (cabin : String) : SearchResult :=
  findCheapestAux g dest cabin (searchFuel g)
    [⟨0, earliest_departure, start, []⟩] []

/-! ### Constraint-satisfying itineraries (the search specification) -/

/-- The legs connect: `leg[i].dest == leg[i+1].origin`, starting at `a`. -/
def chainFrom (a : String) : List Flight → Bool
  | [] => true
  | f :: fs => f.origin == a && chainFrom f.dest fs

/-- Departure/layover feasibility from time `t`; `firstLeg` marks that no
minimum layover applies yet. -/
def feasibleFrom (t : Int) (firstLeg : Bool) : List Flight → Bool
  | [] => true
  | f :: fs =>
    (if firstLeg then decide (t ≤ f.depart)
     else decide (t + MIN_LAYOVER_MINUTES ≤ f.depart)) && feasibleFrom f.arrive false fs

/-- Endpoint airport of a journey that starts at `a`. -/
def lastDest (a : String) : List Flight → String
  | [] => a
  | f :: fs => lastDest f.dest fs

/-- Final arrival time of a journey whose reference time is `t`. -/
def arrivalFrom (t : Int) : List Flight → Int
  | [] => t
  | f :: fs => arrivalFrom f.arrive fs

/-- Every leg is an edge of the route graph. -/
def inGraphB (g : Graph) (fs : List Flight) : Bool :=
  fs.all (fun f => decide (f ∈ graphGet g f.origin))

/-- A (possibly empty) journey drawn from `g`, starting at `s`, feasible for
earliest departure `e`. -/
def validJourney (g : Graph) (s : String) (e : Int) (fs : List Flight) : Bool :=
  chainFrom s fs && feasibleFrom e true fs && inGraphB g fs

/-- A constraint-satisfying itinerary from `s` to `d`: a non-empty valid
journey ending at `d`. -/
def validItin (g : Graph) (s d : String) (e : Int) (fs : List Flight) : Bool :=
  validJourney g s e fs && !fs.isEmpty && (lastDest s fs == d)

/-! ### Well-formedness facts the loader guarantees for real route graphs -/

/-- Every stored leg departs from the airport it is filed under. -/
def graphWF (g : Graph) : Bool :=
  g.all (fun p => p.2.all (fun f => f.origin == p.1))

/-- Every stored leg satisfies the load-time invariant `depart < arrive`
(we only ever need `depart ≤ arrive`). -/
def timeOK (g : Graph) : Bool :=
  g.all (fun p => p.2.all (fun f => decide (f.depart ≤ f.arrive)))

/-- Every stored leg has non-negative cabin prices. -/
def pricesOK (g : Graph) : Bool :=
  g.all (fun p => p.2.all
    (fun f => decide (0 ≤ f.economy) && decide (0 ≤ f.business) && decide (0 ≤ f.first)))

deriving instance DecidableEq for Except

/-! ### Proof-level definitions: state invariants and measures -/

/-- Invariant of an earliest-arrival heap state: its path is a valid journey
from `s` and the state caches its endpoint and arrival. -/
def stateOk (g : Graph) (s : String) (e : Int) (st : EState) : Prop :=
  validJourney g s e st.path = true ∧
  st.airport = lastDest s st.path ∧ st.time = arrivalFrom e st.path

/-- Invariant of a cheapest-price heap state (price not tracked). -/
def stateOkC (g : Graph) (s : String) (e : Int) (st : CState) : Prop :=
  validJourney g s e st.path = true ∧
  st.airport = lastDest s st.path ∧ st.time = arrivalFrom e st.path

/-- The earliest-arrival heap ordering on arrival times. -/
def timeLE (a b : EState) : Prop := a.time ≤ b.time

/-- The cheapest-price heap ordering on accumulated prices. -/
def priceLE (a b : CState) : Prop := a.price ≤ b.price

/-- The unexpanded outdegree budget remaining in `visited`. -/
def remBudget (g : Graph) (visited : List (String × Int)) : Nat :=
  (((g.map Prod.fst).dedup.filter (fun a => (vLookup visited a).isNone)).map
    (fun a => (graphGet g a).length)).sum

/-- Some state in the heap covers airport `a` by time `t`. -/
def heapHas (heap : List EState) (a : String) (t : Int) : Prop :=
  ∃ st ∈ heap, st.airport = a ∧ st.time ≤ t

/-- The visited map dominates airport `a` at or below `t`. -/
def visHas (visited : List (String × Int)) (a : String) (t : Int) : Prop :=
  ∃ v, vLookup visited a = some v ∧ v ≤ t

/-- Either the configuration is the initial one, or the start airport is
recorded at `e` and every queued state has a non-empty path. -/
def seededP (s : String) (e : Int) (heap : List EState)
    (visited : List (String × Int)) : Prop :=
  (visited = [] ∧ heap = [⟨e, s, []⟩]) ∨
  (vLookup visited s = some e ∧ ∀ st ∈ heap, st.path ≠ [])

/-- One-step closure: every admissible outbound flight of an expanded
airport is covered by a queued state or by a dominating visited entry away
from `d`. -/
def closP (g : Graph) (s d : String) (heap : List EState)
    (visited : List (String × Int)) : Prop :=
  ∀ a v, vLookup visited a = some v → ∀ f ∈ graphGet g a,
    (v + MIN_LAYOVER_MINUTES ≤ f.depart ∨ (a = s ∧ v ≤ f.depart)) →
    (∃ st ∈ heap, st.path ≠ [] ∧ st.airport = f.dest ∧ st.time ≤ f.arrive) ∨
    (f.dest ≠ d ∧ visHas visited f.dest f.arrive)

/-- Every valid journey has a prefix whose endpoint is covered by the queue
or dominated by the visited map. -/
def jinvP (g : Graph) (s : String) (e : Int) (heap : List EState)
    (visited : List (String × Int)) : Prop :=
  ∀ fs, validJourney g s e fs = true →
    ∃ p q, fs = p ++ q ∧
      (heapHas heap (lastDest s p) (arrivalFrom e p) ∨
       visHas visited (lastDest s p) (arrivalFrom e p))

/-! ### Concrete instances used by the claim theorems and witnesses -/

/-- Cheap leg to the hub that arrives too late to connect. -/
def lateCheap : Flight := ⟨"S", "A", "F1", 480, 720, 10, 10, 10⟩

/-- Pricier leg to the hub that arrives early enough to connect. -/
def earlyPricey : Flight := ⟨"S", "A", "F2", 480, 540, 50, 50, 50⟩

/-- Onward leg from the hub to the destination. -/
def connLeg : Flight := ⟨"A", "D", "F3", 600, 660, 10, 10, 10⟩

/-- Graph on which price-keyed dominance pruning discards the only
constraint-satisfying route. -/
def priceTrapGraph : Graph := build_graph [lateCheap, earlyPricey, connLeg]

/-- First of two legs with equal arrival time and destination. -/
def tieOneA : Flight := ⟨"S", "B", "E1", 480, 630, 5, 5, 5⟩

/-- Second of two legs with equal arrival time and destination. -/
def tieOneB : Flight := ⟨"S", "B", "E2", 540, 630, 5, 5, 5⟩

/-- Graph whose two legs produce heap states that tie on `(time, airport)`
but differ in path. -/
def tieGraphOne : Graph := build_graph [tieOneA, tieOneB]

/-- Outbound leg of a round trip. -/
def outLeg : Flight := ⟨"S", "A", "R1", 480, 540, 100, 100, 100⟩

/-- Return leg of a round trip (layover exactly 60 minutes). -/
def backLeg : Flight := ⟨"A", "S", "R2", 600, 660, 100, 100, 100⟩

/-- Graph containing a feasible round trip from `S` back to `S`. -/
def roundTripGraph : Graph := build_graph [outLeg, backLeg]

/-- First tied leg of the unreachable-destination example. -/
def tieTwoA : Flight := ⟨"S", "B", "E3", 480, 620, 7, 7, 7⟩

/-- Second tied leg of the unreachable-destination example. -/
def tieTwoB : Flight := ⟨"S", "B", "E4", 500, 620, 7, 7, 7⟩

/-- Graph with tied states and no route at all to airport `Z`. -/
def tieGraphTwo : Graph := build_graph [tieTwoA, tieTwoB]

/-- First tied leg of the ordering-totality example. -/
def tieThreeA : Flight := ⟨"S", "B", "E5", 480, 650, 9, 9, 9⟩

/-- Second tied leg of the ordering-totality example. -/
def tieThreeB : Flight := ⟨"S", "B", "E6", 510, 650, 9, 9, 9⟩

/-- Graph whose search pushes two states the Python ordering cannot compare. -/
def tieGraphThree : Graph := build_graph [tieThreeA, tieThreeB]

/-- Spec scenario: `A -> B` departing 08:00, arriving 10:00. -/
def legAB : Flight := ⟨"A", "B", "AB1", 480, 600, 100, 200, 300⟩

/-- Spec scenario: `B -> C` departing 11:00, arriving 13:00. -/
def legBC : Flight := ⟨"B", "C", "BC1", 660, 780, 50, 100, 150⟩

/-- Spec scenario: direct `A -> C` departing 09:00, arriving 15:00. -/
def legAC : Flight := ⟨"A", "C", "AC1", 540, 900, 200, 250, 300⟩

/-- The three-flight comparison scenario from the specification. -/
def scenarioGraph : Graph := build_graph [legAB, legBC, legAC]

/-! ### Theorems -/

/-- Claim C1: FALSIFIED by this evaluation (status: code bug).  On
`priceTrapGraph` the itinerary `[earlyPricey, connLeg]` satisfies every
constraint (economy total 60), yet `find_cheapest_itinerary` returns
absence: its per-airport dominance pruning is keyed on price alone, so the
cheap-but-late state at the hub is finalized first and the pricier state
that arrives early enough to connect is discarded. -/
theorem cheapest_misses_valid_itinerary :
    find_cheapest_itinerary priceTrapGraph "S" "D" 480 "economy" = SearchResult.notFound ∧
    validItin priceTrapGraph "S" "D" 480 [earlyPricey, connLeg] = true ∧
    Itinerary.total_price ⟨[earlyPricey, connLeg]⟩ "economy" = Except.ok 60 :=
  ⟨rfl, rfl, rfl⟩

/-- Claim C2, counterexample: a constraint-satisfying itinerary to `B`
exists (`[tieOneA]`, arriving 630), but the search raises `TypeError`
instead of returning any itinerary, because the two pushed states tie on
`(arrival, airport)` and `Flight` values admit no ordering. -/
theorem earliest_tie_comparison_fails :
    find_earliest_itinerary tieGraphOne "S" "B" 480 =
      SearchResult.error "TypeError: unorderable Flight values" ∧
    validItin tieGraphOne "S" "B" 480 [tieOneA] = true ∧
    arrivalFrom 480 [tieOneA] = 630 :=
  ⟨rfl, rfl, rfl⟩

/-- Claim C4, counterexample: with `start == dest == "S"` and a feasible
round trip in the graph, both searches return that round trip rather than
the absence the claim demands. -/
theorem round_trip_returned_when_start_eq_dest :
    find_earliest_itinerary roundTripGraph "S" "S" 480 =
      SearchResult.found ⟨[outLeg, backLeg]⟩ ∧
    find_cheapest_itinerary roundTripGraph "S" "S" 480 "economy" =
      SearchResult.found ⟨[outLeg, backLeg]⟩ :=
  ⟨rfl, rfl⟩

/-- Claim C5: FALSIFIED by this evaluation (status: code bug).  Airport `Z`
is unreachable (every leg of the graph lands at `B`), so the claim demands
the absence value, but the search raises `TypeError` while pushing two
states that tie on `(arrival, airport)` with different paths. -/
theorem search_raises_on_unorderable_tie :
    find_earliest_itinerary tieGraphTwo "S" "Z" 480 =
      SearchResult.error "TypeError: unorderable Flight values" ∧
    tieGraphTwo.all (fun p => p.2.all (fun f => f.dest == "B")) = true :=
  ⟨rfl, rfl⟩

/-- Claim C7: FALSIFIED by this evaluation (status: code bug).  A record
with price `-5` loads successfully: `parse_flight_line_txt` validates the
times and `arrive > depart` but never checks price signs, so the claimed
rejection of negative prices does not happen and the produced `Flight`
violates the claimed non-negativity. -/
theorem negative_price_accepted_at_load :
    parse_flight_line_txt "AAA BBB F1 08:00 09:00 -5 10 10" =
      Except.ok (some ⟨"AAA", "BBB", "F1", 480, 540, -5, 10, 10⟩) :=
  rfl

/-- Claim C8: for any cabin string outside {economy, business, first},
`price_for` raises `ValueError`; for the three known cabins it returns
exactly the corresponding price field. -/
theorem price_for_cabin_cases (f : Flight) (c : String) :
    (c ≠ "economy" → c ≠ "business" → c ≠ "first" →
      f.price_for c = Except.error ("Unknown cabin: " ++ c)) ∧
    f.price_for "economy" = Except.ok f.economy ∧
    f.price_for "business" = Except.ok f.business ∧
    f.price_for "first" = Except.ok f.first := by
  refine ⟨fun h1 h2 h3 => ?_, rfl, rfl, rfl⟩
  simp [Flight.price_for, h1, h2, h3]

/-- Witness for C8 at a concrete flight and the unknown cabin "premium". -/
theorem price_for_cabin_cases_witness :
    Flight.price_for ⟨"A", "B", "X", 0, 1, 11, 22, 33⟩ "premium" =
      Except.error ("Unknown cabin: " ++ "premium") :=
  (price_for_cabin_cases ⟨"A", "B", "X", 0, 1, 11, 22, 33⟩ "premium").1
    (by decide) (by decide) (by decide)

/-- Claim C10: FALSIFIED (status: code bug).  The priority ordering is not
total on reachable states: the two states the search pushes from `S` tie on
`(arrival, airport)` and their path comparison needs `Flight < Flight`,
which Python's frozen dataclass does not define, so the comparison raises
`TypeError` (modelled by `none`) and the search run aborts with that error
instead of breaking the tie deterministically. -/
theorem heap_ordering_not_total :
    cmpEState ⟨650, "B", [tieThreeA]⟩ ⟨650, "B", [tieThreeB]⟩ = none ∧
    find_earliest_itinerary tieGraphThree "S" "B" 480 =
      SearchResult.error "TypeError: unorderable Flight values" :=
  ⟨rfl, rfl⟩


/-! ### Development: C3 and C4 machinery -/

lemma findEarliestAux_found_ne_nil (g : Graph) (dest : String) :
    ∀ (fuel : Nat) (heap : List EState) (visited : List (String × Int)) (it : Itinerary),
      findEarliestAux g dest fuel heap visited = SearchResult.found it → it.flights ≠ [] := by
  intro fuel
  induction fuel with
  | zero => intro heap visited it h; simp [findEarliestAux] at h
  | succ n ih =>
    intro heap visited it h
    cases heap with
    | nil => simp [findEarliestAux] at h
    | cons st rest =>
      rw [findEarliestAux] at h
      split at h
      · next hd => cases h; exact hd.2
      · split at h
        · exact ih _ _ _ h
        · split at h
          · simp at h
          · exact ih _ _ _ h

lemma findCheapestAux_found_ne_nil (g : Graph) (dest cabin : String) :
    ∀ (fuel : Nat) (heap : List CState) (visited : List (String × Int)) (it : Itinerary),
      findCheapestAux g dest cabin fuel heap visited = SearchResult.found it → it.flights ≠ [] := by
  intro fuel
  induction fuel with
  | zero => intro heap visited it h; simp [findCheapestAux] at h
  | succ n ih =>
    intro heap visited it h
    cases heap with
    | nil => simp [findCheapestAux] at h
    | cons st rest =>
      rw [findCheapestAux] at h
      split at h
      · next hd => cases h; exact hd.2
      · split at h
        · exact ih _ _ _ h
        · split at h
          · simp at h
          · exact ih _ _ _ h

/-- Claim C4, amended half: neither search ever returns an empty itinerary. -/
theorem searches_never_return_empty_itinerary (g : Graph) (s d : String) (e : Int)
    (c : String) (it : Itinerary) :
    (find_earliest_itinerary g s d e = SearchResult.found it → it.flights ≠ []) ∧
    (find_cheapest_itinerary g s d e c = SearchResult.found it → it.flights ≠ []) :=
  ⟨fun h => findEarliestAux_found_ne_nil g d _ _ _ it h,
   fun h => findCheapestAux_found_ne_nil g d c _ _ _ it h⟩

/-- Witness for the amended C4 at the round-trip instance. -/
theorem searches_never_return_empty_itinerary_witness :
    (Itinerary.mk [outLeg, backLeg]).flights ≠ [] :=
  (searches_never_return_empty_itinerary roundTripGraph "S" "S" 480 "economy"
    ⟨[outLeg, backLeg]⟩).1 rfl

/-! ### Development: C3 validity machinery -/

lemma graphGet_origin (g : Graph) (hwf : graphWF g = true) :
    ∀ (a : String) (f : Flight), f ∈ graphGet g a → f.origin = a := by
  induction g with
  | nil => intro a f hf; simp [graphGet] at hf
  | cons p rest ih =>
    intro a f hf
    rw [graphWF, List.all_cons, Bool.and_eq_true] at hwf
    obtain ⟨hp, hrest⟩ := hwf
    rw [graphGet] at hf
    by_cases hb : p.1 = a
    · rw [if_pos hb] at hf
      rw [List.all_eq_true] at hp
      have hor := hp f hf
      rw [beq_iff_eq] at hor
      rw [hor, hb]
    · rw [if_neg hb] at hf
      exact ih hrest a f hf

lemma lastDest_snoc (f : Flight) : ∀ (p : List Flight) (s : String),
    lastDest s (p ++ [f]) = f.dest := by
  intro p
  induction p with
  | nil => intro s; rfl
  | cons x xs ih => intro s; rw [List.cons_append, lastDest, ih]

lemma arrivalFrom_snoc (f : Flight) : ∀ (p : List Flight) (t : Int),
    arrivalFrom t (p ++ [f]) = f.arrive := by
  intro p
  induction p with
  | nil => intro t; rfl
  | cons x xs ih => intro t; rw [List.cons_append, arrivalFrom, ih]

lemma chainFrom_snoc (f : Flight) : ∀ (p : List Flight) (s : String),
    chainFrom s p = true → f.origin = lastDest s p → chainFrom s (p ++ [f]) = true := by
  intro p
  induction p with
  | nil =>
    intro s _ ho
    rw [lastDest] at ho
    simp [chainFrom, ho]
  | cons x xs ih =>
    intro s hc ho
    rw [chainFrom, Bool.and_eq_true] at hc
    rw [List.cons_append, chainFrom, Bool.and_eq_true]
    exact ⟨hc.1, ih x.dest hc.2 ho⟩

lemma feasibleFrom_snoc (f : Flight) : ∀ (p : List Flight) (t : Int) (b : Bool),
    feasibleFrom t b p = true →
    (if p.isEmpty && b then decide (t ≤ f.depart)
     else decide (arrivalFrom t p + MIN_LAYOVER_MINUTES ≤ f.depart)) = true →
    feasibleFrom t b (p ++ [f]) = true := by
  intro p
  induction p with
  | nil =>
    intro t b _ hj
    cases b with
    | true =>
      simp only [List.isEmpty_nil, Bool.and_self, if_pos] at hj
      simp [feasibleFrom, hj]
    | false =>
      simp only [List.isEmpty_nil, Bool.and_false, Bool.false_eq_true, if_neg,
        not_false_eq_true, arrivalFrom] at hj
      simp [feasibleFrom, hj]
  | cons x xs ih =>
    intro t b hf hj
    rw [feasibleFrom, Bool.and_eq_true] at hf
    rw [List.cons_append, feasibleFrom, Bool.and_eq_true]
    refine ⟨hf.1, ih x.arrive false hf.2 ?_⟩
    simp only [List.isEmpty_cons, Bool.false_and, Bool.false_eq_true, if_neg,
      not_false_eq_true, arrivalFrom] at hj
    simp only [Bool.and_false, Bool.false_eq_true, if_neg, not_false_eq_true]
    exact hj

lemma inGraphB_snoc (g : Graph) (f : Flight) (p : List Flight)
    (hp : inGraphB g p = true) (hf : f ∈ graphGet g f.origin) :
    inGraphB g (p ++ [f]) = true := by
  rw [inGraphB, List.all_append, Bool.and_eq_true]
  refine ⟨hp, ?_⟩
  simp [hf]

lemma pushedStateOk (g : Graph) (s : String) (e : Int) (st : EState) (f : Flight)
    (hwf : graphWF g = true) (hok : stateOk g s e st)
    (hf : f ∈ graphGet g st.airport)
    (hl : layoverOk st.time st.path f = true) :
    stateOk g s e ⟨f.arrive, f.dest, st.path ++ [f]⟩ := by
  obtain ⟨hval, hair, htime⟩ := hok
  rw [validJourney, Bool.and_eq_true, Bool.and_eq_true] at hval
  obtain ⟨⟨hchain, hfeas⟩, hgraph⟩ := hval
  have horig : f.origin = st.airport := graphGet_origin g hwf st.airport f hf
  have hchain2 : chainFrom s (st.path ++ [f]) = true :=
    chainFrom_snoc f st.path s hchain (by rw [horig, hair])
  have hfeas2 : feasibleFrom e true (st.path ++ [f]) = true := by
    refine feasibleFrom_snoc f st.path e true hfeas ?_
    rw [layoverOk] at hl
    by_cases hemp : st.path.isEmpty = true
    · have hnil : st.path = [] := by
        cases hsp : st.path with
        | nil => rfl
        | cons a b => rw [hsp] at hemp; simp at hemp
      rw [if_pos hemp] at hl
      rw [hnil] at htime
      rw [arrivalFrom] at htime
      rw [htime] at hl
      rw [hemp]
      simp only [Bool.and_self, if_pos]
      exact hl
    · rw [if_neg hemp] at hl
      rw [Bool.not_eq_true] at hemp
      rw [hemp]
      simp only [Bool.false_and, Bool.false_eq_true, if_neg, not_false_eq_true]
      rw [htime] at hl
      exact hl
  have hgraph2 : inGraphB g (st.path ++ [f]) = true :=
    inGraphB_snoc g f st.path hgraph (by rw [horig]; exact hf)
  refine ⟨?_, ?_, ?_⟩
  · rw [validJourney, Bool.and_eq_true, Bool.and_eq_true]
    exact ⟨⟨hchain2, hfeas2⟩, hgraph2⟩
  · rw [lastDest_snoc]
  · rw [arrivalFrom_snoc]

lemma epqInsert_mem (s : EState) : ∀ (q q2 : List EState),
    epqInsert s q = some q2 → ∀ x, x ∈ q2 ↔ x = s ∨ x ∈ q := by
  intro q
  induction q with
  | nil =>
    intro q2 h x
    rw [epqInsert] at h
    cases h
    simp
  | cons t ts ih =>
    intro q2 h x
    rw [epqInsert] at h
    cases hc : cmpEState t s with
    | none => rw [hc] at h; cases h
    | some o =>
      rw [hc] at h
      cases o with
      | lt =>
        simp only at h
        cases hr : epqInsert s ts with
        | none => rw [hr] at h; cases h
        | some r =>
          rw [hr] at h
          cases h
          simp only [List.mem_cons]
          rw [ih r hr x]
          tauto
      | eq => simp only at h; cases h; simp [List.mem_cons]
      | gt => simp only at h; cases h; simp [List.mem_cons]

lemma epushAll_mem (cur : EState) : ∀ (fs : List Flight) (q q2 : List EState),
    epushAll cur fs q = some q2 → ∀ x, x ∈ q2 ↔ x ∈ q ∨
      ∃ f ∈ fs, layoverOk cur.time cur.path f = true ∧
        x = ⟨f.arrive, f.dest, cur.path ++ [f]⟩ := by
  intro fs
  induction fs with
  | nil =>
    intro q q2 h x
    rw [epushAll] at h
    cases h
    simp
  | cons f fs ih =>
    intro q q2 h x
    rw [epushAll] at h
    by_cases hl : layoverOk cur.time cur.path f = true
    · rw [if_pos hl] at h
      cases hi : epqInsert ⟨f.arrive, f.dest, cur.path ++ [f]⟩ q with
      | none => rw [hi] at h; cases h
      | some q1 =>
        rw [hi] at h
        rw [ih q1 q2 h x, epqInsert_mem _ q q1 hi x]
        constructor
        · rintro ((rfl | hq) | ⟨f2, hf2, hl2, rfl⟩)
          · exact Or.inr ⟨f, List.mem_cons_self f fs, hl, rfl⟩
          · exact Or.inl hq
          · exact Or.inr ⟨f2, List.mem_cons_of_mem f hf2, hl2, rfl⟩
        · rintro (hq | ⟨f2, hf2, hl2, rfl⟩)
          · exact Or.inl (Or.inr hq)
          · rcases List.mem_cons.mp hf2 with rfl | hf3
            · exact Or.inl (Or.inl rfl)
            · exact Or.inr ⟨f2, hf3, hl2, rfl⟩
    · rw [if_neg hl] at h
      rw [ih q q2 h x]
      constructor
      · rintro (hq | ⟨f2, hf2, hl2, rfl⟩)
        · exact Or.inl hq
        · exact Or.inr ⟨f2, List.mem_cons_of_mem f hf2, hl2, rfl⟩
      · rintro (hq | ⟨f2, hf2, hl2, rfl⟩)
        · exact Or.inl hq
        · rcases List.mem_cons.mp hf2 with rfl | hf3
          · exact absurd hl2 hl
          · exact Or.inr ⟨f2, hf3, hl2, rfl⟩

lemma pushedStateOkC (g : Graph) (s : String) (e : Int) (st : CState) (f : Flight)
    (pr : Int) (hwf : graphWF g = true) (hok : stateOkC g s e st)
    (hf : f ∈ graphGet g st.airport)
    (hl : layoverOk st.time st.path f = true) :
    stateOkC g s e ⟨st.price + pr, f.arrive, f.dest, st.path ++ [f]⟩ := by
  obtain ⟨hval, hair, htime⟩ := hok
  have := pushedStateOk g s e ⟨st.time, st.airport, st.path⟩ f hwf ⟨hval, hair, htime⟩ hf hl
  obtain ⟨h1, h2, h3⟩ := this
  exact ⟨h1, h2, h3⟩

lemma cpqInsert_mem (s : CState) : ∀ (q q2 : List CState),
    cpqInsert s q = some q2 → ∀ x, x ∈ q2 ↔ x = s ∨ x ∈ q := by
  intro q
  induction q with
  | nil =>
    intro q2 h x
    rw [cpqInsert] at h
    cases h
    simp
  | cons t ts ih =>
    intro q2 h x
    rw [cpqInsert] at h
    cases hc : cmpCState t s with
    | none => rw [hc] at h; cases h
    | some o =>
      rw [hc] at h
      cases o with
      | lt =>
        simp only at h
        cases hr : cpqInsert s ts with
        | none => rw [hr] at h; cases h
        | some r =>
          rw [hr] at h
          cases h
          simp only [List.mem_cons]
          rw [ih r hr x]
          tauto
      | eq => simp only at h; cases h; simp [List.mem_cons]
      | gt => simp only at h; cases h; simp [List.mem_cons]

lemma cpushAll_mem (cabin : String) (cur : CState) : ∀ (fs : List Flight) (q q2 : List CState),
    cpushAll cabin cur fs q = Except.ok q2 → ∀ x, x ∈ q2 ↔ x ∈ q ∨
      ∃ f ∈ fs, layoverOk cur.time cur.path f = true ∧
        ∃ pr, f.price_for cabin = Except.ok pr ∧
          x = ⟨cur.price + pr, f.arrive, f.dest, cur.path ++ [f]⟩ := by
  intro fs
  induction fs with
  | nil =>
    intro q q2 h x
    rw [cpushAll] at h
    cases h
    simp
  | cons f fs ih =>
    intro q q2 h x
    rw [cpushAll] at h
    by_cases hl : layoverOk cur.time cur.path f = true
    · rw [if_pos hl] at h
      cases hp : f.price_for cabin with
      | error m => rw [hp] at h; cases h
      | ok pr =>
        rw [hp] at h
        dsimp only at h
        cases hi : cpqInsert ⟨cur.price + pr, f.arrive, f.dest, cur.path ++ [f]⟩ q with
        | none => rw [hi] at h; cases h
        | some q1 =>
          rw [hi] at h
          rw [ih q1 q2 h x, cpqInsert_mem _ q q1 hi x]
          constructor
          · rintro ((rfl | hq) | ⟨f2, hf2, hl2, pr2, hp2, rfl⟩)
            · exact Or.inr ⟨f, List.mem_cons_self f fs, hl, pr, hp, rfl⟩
            · exact Or.inl hq
            · exact Or.inr ⟨f2, List.mem_cons_of_mem f hf2, hl2, pr2, hp2, rfl⟩
          · rintro (hq | ⟨f2, hf2, hl2, pr2, hp2, rfl⟩)
            · exact Or.inl (Or.inr hq)
            · rcases List.mem_cons.mp hf2 with rfl | hf3
              · rw [hp] at hp2
                cases hp2
                exact Or.inl (Or.inl rfl)
              · exact Or.inr ⟨f2, hf3, hl2, pr2, hp2, rfl⟩
    · rw [if_neg hl] at h
      rw [ih q q2 h x]
      constructor
      · rintro (hq | ⟨f2, hf2, hl2, pr2, hp2, rfl⟩)
        · exact Or.inl hq
        · exact Or.inr ⟨f2, List.mem_cons_of_mem f hf2, hl2, pr2, hp2, rfl⟩
      · rintro (hq | ⟨f2, hf2, hl2, pr2, hp2, rfl⟩)
        · exact Or.inl hq
        · rcases List.mem_cons.mp hf2 with rfl | hf3
          · exact absurd hl2 hl
          · exact Or.inr ⟨f2, hf3, hl2, pr2, hp2, rfl⟩

lemma findEarliestAux_found_valid (g : Graph) (s d : String) (e : Int)
    (hwf : graphWF g = true) :
    ∀ (fuel : Nat) (heap : List EState) (visited : List (String × Int)) (it : Itinerary),
      (∀ st ∈ heap, stateOk g s e st) →
      findEarliestAux g d fuel heap visited = SearchResult.found it →
      validItin g s d e it.flights = true := by
  intro fuel
  induction fuel with
  | zero => intro heap visited it _ h; simp [findEarliestAux] at h
  | succ n ih =>
    intro heap visited it hall h
    cases heap with
    | nil => simp [findEarliestAux] at h
    | cons st rest =>
      have hst := hall st (List.mem_cons_self st rest)
      have hrest : ∀ x ∈ rest, stateOk g s e x :=
        fun x hx => hall x (List.mem_cons_of_mem st hx)
      rw [findEarliestAux] at h
      split at h
      · next hd =>
        cases h
        obtain ⟨hval, hair, _⟩ := hst
        rw [validItin, Bool.and_eq_true, Bool.and_eq_true]
        refine ⟨⟨hval, ?_⟩, ?_⟩
        · cases hsp : st.path with
          | nil => exact absurd hsp hd.2
          | cons a b => simp
        · rw [beq_iff_eq, ← hair, hd.1]
      · split at h
        · exact ih rest visited it hrest h
        · split at h
          · simp at h
          · next q hq =>
            refine ih q _ it ?_ h
            intro x hx
            rw [epushAll_mem st (graphGet g st.airport) rest q hq x] at hx
            rcases hx with hx1 | ⟨f, hf, hl, rfl⟩
            · exact hrest x hx1
            · exact pushedStateOk g s e st f hwf hst hf hl

lemma findCheapestAux_found_valid (g : Graph) (s d : String) (e : Int) (cabin : String)
    (hwf : graphWF g = true) :
    ∀ (fuel : Nat) (heap : List CState) (visited : List (String × Int)) (it : Itinerary),
      (∀ st ∈ heap, stateOkC g s e st) →
      findCheapestAux g d cabin fuel heap visited = SearchResult.found it →
      validItin g s d e it.flights = true := by
  intro fuel
  induction fuel with
  | zero => intro heap visited it _ h; simp [findCheapestAux] at h
  | succ n ih =>
    intro heap visited it hall h
    cases heap with
    | nil => simp [findCheapestAux] at h
    | cons st rest =>
      have hst := hall st (List.mem_cons_self st rest)
      have hrest : ∀ x ∈ rest, stateOkC g s e x :=
        fun x hx => hall x (List.mem_cons_of_mem st hx)
      rw [findCheapestAux] at h
      split at h
      · next hd =>
        cases h
        obtain ⟨hval, hair, _⟩ := hst
        rw [validItin, Bool.and_eq_true, Bool.and_eq_true]
        refine ⟨⟨hval, ?_⟩, ?_⟩
        · cases hsp : st.path with
          | nil => exact absurd hsp hd.2
          | cons a b => simp
        · rw [beq_iff_eq, ← hair, hd.1]
      · split at h
        · exact ih rest visited it hrest h
        · split at h
          · simp at h
          · next q hq =>
            refine ih q _ it ?_ h
            intro x hx
            rw [cpushAll_mem cabin st (graphGet g st.airport) rest q hq x] at hx
            rcases hx with hx1 | ⟨f, hf, hl, pr, hp, rfl⟩
            · exact hrest x hx1
            · exact pushedStateOkC g s e st f pr hwf hst hf hl

/-- Claim C3: every itinerary either search returns satisfies all three
constraints (first departure bound, 60-minute layovers with equality
allowed, connecting legs) and runs from `start` to `dest` through edges of
the route graph; `validItin` bundles exactly these conditions. -/
theorem returned_itineraries_satisfy_constraints (g : Graph) (s d : String) (e : Int)
    (c : String) (hwf : graphWF g = true) :
    (∀ it, find_earliest_itinerary g s d e = SearchResult.found it →
      validItin g s d e it.flights = true) ∧
    (∀ it, find_cheapest_itinerary g s d e c = SearchResult.found it →
      validItin g s d e it.flights = true) := by
  constructor
  · intro it h
    refine findEarliestAux_found_valid g s d e hwf (searchFuel g) _ [] it ?_ h
    intro st hst
    rw [List.mem_singleton] at hst
    rw [hst]
    exact ⟨rfl, rfl, rfl⟩
  · intro it h
    refine findCheapestAux_found_valid g s d e c hwf (searchFuel g) _ [] it ?_ h
    intro st hst
    rw [List.mem_singleton] at hst
    rw [hst]
    exact ⟨rfl, rfl, rfl⟩

/-- Witness for C3 on the spec scenario: the itinerary the earliest-arrival
search returns for `A -> C` satisfies the constraints. -/
theorem returned_itineraries_satisfy_constraints_witness :
    validItin scenarioGraph "A" "C" 420 (Itinerary.mk [legAB, legBC]).flights = true :=
  (returned_itineraries_satisfy_constraints scenarioGraph "A" "C" 420 "economy"
    (by decide)).1 ⟨[legAB, legBC]⟩ rfl

/-! ### Development: C6 termination machinery -/

lemma cmpInt_cases (a b : Int) :
    (cmpInt a b = Ordering.lt ∧ a < b) ∨ (cmpInt a b = Ordering.gt ∧ b < a) ∨
    (cmpInt a b = Ordering.eq ∧ a = b) := by
  rw [cmpInt]
  split_ifs with h1 h2
  · exact Or.inl ⟨rfl, h1⟩
  · exact Or.inr (Or.inl ⟨rfl, h2⟩)
  · exact Or.inr (Or.inr ⟨rfl, by omega⟩)

lemma cmpEState_time_le {t s : EState} {o : Ordering} (h : cmpEState t s = some o) :
    (o = Ordering.lt → t.time ≤ s.time) ∧ (o ≠ Ordering.lt → s.time ≤ t.time) := by
  rw [cmpEState] at h
  rcases cmpInt_cases t.time s.time with ⟨hc, hlt⟩ | ⟨hc, hgt⟩ | ⟨hc, heq⟩
  · rw [hc] at h
    simp only at h
    cases h
    exact ⟨fun _ => le_of_lt hlt, fun hno => absurd rfl hno⟩
  · rw [hc] at h
    simp only at h
    cases h
    exact ⟨fun he => Ordering.noConfusion he, fun _ => le_of_lt hgt⟩
  · exact ⟨fun _ => le_of_eq heq, fun _ => le_of_eq heq.symm⟩

lemma cmpCState_price_le {t s : CState} {o : Ordering} (h : cmpCState t s = some o) :
    (o = Ordering.lt → t.price ≤ s.price) ∧ (o ≠ Ordering.lt → s.price ≤ t.price) := by
  rw [cmpCState] at h
  rcases cmpInt_cases t.price s.price with ⟨hc, hlt⟩ | ⟨hc, hgt⟩ | ⟨hc, heq⟩
  · rw [hc] at h
    simp only at h
    cases h
    exact ⟨fun _ => le_of_lt hlt, fun hno => absurd rfl hno⟩
  · rw [hc] at h
    simp only at h
    cases h
    exact ⟨fun he => Ordering.noConfusion he, fun _ => le_of_lt hgt⟩
  · exact ⟨fun _ => le_of_eq heq, fun _ => le_of_eq heq.symm⟩

lemma epqInsert_sorted {s : EState} : ∀ {q q2 : List EState},
    List.Pairwise timeLE q → epqInsert s q = some q2 → List.Pairwise timeLE q2 := by
  intro q
  induction q with
  | nil =>
    intro q2 _ h
    cases h
    exact List.pairwise_singleton _ _
  | cons t ts ih =>
    intro q2 hs h
    rw [epqInsert] at h
    rw [List.pairwise_cons] at hs
    cases hc : cmpEState t s with
    | none => rw [hc] at h; cases h
    | some o =>
      rw [hc] at h
      cases o with
      | lt =>
        simp only at h
        cases hr : epqInsert s ts with
        | none => rw [hr] at h; cases h
        | some r =>
          rw [hr] at h
          cases h
          rw [List.pairwise_cons]
          refine ⟨?_, ih hs.2 hr⟩
          intro x hx
          rcases (epqInsert_mem s ts r hr x).mp hx with rfl | hx2
          · exact (cmpEState_time_le hc).1 rfl
          · exact hs.1 x hx2
      | eq =>
        simp only at h
        cases h
        rw [List.pairwise_cons]
        refine ⟨?_, List.pairwise_cons.mpr hs⟩
        intro x hx
        have hts : s.time ≤ t.time := (cmpEState_time_le hc).2 (by simp)
        rcases List.mem_cons.mp hx with rfl | hx2
        · exact hts
        · exact le_trans hts (hs.1 x hx2)
      | gt =>
        simp only at h
        cases h
        rw [List.pairwise_cons]
        refine ⟨?_, List.pairwise_cons.mpr hs⟩
        intro x hx
        have hts : s.time ≤ t.time := (cmpEState_time_le hc).2 (by simp)
        rcases List.mem_cons.mp hx with rfl | hx2
        · exact hts
        · exact le_trans hts (hs.1 x hx2)

lemma cpqInsert_sorted {s : CState} : ∀ {q q2 : List CState},
    List.Pairwise priceLE q → cpqInsert s q = some q2 → List.Pairwise priceLE q2 := by
  intro q
  induction q with
  | nil =>
    intro q2 _ h
    cases h
    exact List.pairwise_singleton _ _
  | cons t ts ih =>
    intro q2 hs h
    rw [cpqInsert] at h
    rw [List.pairwise_cons] at hs
    cases hc : cmpCState t s with
    | none => rw [hc] at h; cases h
    | some o =>
      rw [hc] at h
      cases o with
      | lt =>
        simp only at h
        cases hr : cpqInsert s ts with
        | none => rw [hr] at h; cases h
        | some r =>
          rw [hr] at h
          cases h
          rw [List.pairwise_cons]
          refine ⟨?_, ih hs.2 hr⟩
          intro x hx
          rcases (cpqInsert_mem s ts r hr x).mp hx with rfl | hx2
          · exact (cmpCState_price_le hc).1 rfl
          · exact hs.1 x hx2
      | eq =>
        simp only at h
        cases h
        rw [List.pairwise_cons]
        refine ⟨?_, List.pairwise_cons.mpr hs⟩
        intro x hx
        have hts : s.price ≤ t.price := (cmpCState_price_le hc).2 (by simp)
        rcases List.mem_cons.mp hx with rfl | hx2
        · exact hts
        · exact le_trans hts (hs.1 x hx2)
      | gt =>
        simp only at h
        cases h
        rw [List.pairwise_cons]
        refine ⟨?_, List.pairwise_cons.mpr hs⟩
        intro x hx
        have hts : s.price ≤ t.price := (cmpCState_price_le hc).2 (by simp)
        rcases List.mem_cons.mp hx with rfl | hx2
        · exact hts
        · exact le_trans hts (hs.1 x hx2)

lemma epushAll_sorted {cur : EState} : ∀ {fs : List Flight} {q q2 : List EState},
    List.Pairwise timeLE q → epushAll cur fs q = some q2 → List.Pairwise timeLE q2 := by
  intro fs
  induction fs with
  | nil =>
    intro q q2 hs h
    rw [epushAll] at h
    cases h
    exact hs
  | cons f fs ih =>
    intro q q2 hs h
    rw [epushAll] at h
    by_cases hl : layoverOk cur.time cur.path f = true
    · rw [if_pos hl] at h
      cases hi : epqInsert ⟨f.arrive, f.dest, cur.path ++ [f]⟩ q with
      | none => rw [hi] at h; cases h
      | some q1 =>
        rw [hi] at h
        exact ih (epqInsert_sorted hs hi) h
    · rw [if_neg hl] at h
      exact ih hs h

lemma cpushAll_sorted {cabin : String} {cur : CState} :
    ∀ {fs : List Flight} {q q2 : List CState},
    List.Pairwise priceLE q → cpushAll cabin cur fs q = Except.ok q2 →
    List.Pairwise priceLE q2 := by
  intro fs
  induction fs with
  | nil =>
    intro q q2 hs h
    rw [cpushAll] at h
    cases h
    exact hs
  | cons f fs ih =>
    intro q q2 hs h
    rw [cpushAll] at h
    by_cases hl : layoverOk cur.time cur.path f = true
    · rw [if_pos hl] at h
      cases hp : f.price_for cabin with
      | error m => rw [hp] at h; cases h
      | ok pr =>
        rw [hp] at h
        dsimp only at h
        cases hi : cpqInsert ⟨cur.price + pr, f.arrive, f.dest, cur.path ++ [f]⟩ q with
        | none => rw [hi] at h; cases h
        | some q1 =>
          rw [hi] at h
          exact ih (cpqInsert_sorted hs hi) h
    · rw [if_neg hl] at h
      exact ih hs h

lemma epqInsert_length {s : EState} : ∀ {q q2 : List EState},
    epqInsert s q = some q2 → q2.length = q.length + 1 := by
  intro q
  induction q with
  | nil => intro q2 h; cases h; rfl
  | cons t ts ih =>
    intro q2 h
    rw [epqInsert] at h
    cases hc : cmpEState t s with
    | none => rw [hc] at h; cases h
    | some o =>
      rw [hc] at h
      cases o with
      | lt =>
        simp only at h
        cases hr : epqInsert s ts with
        | none => rw [hr] at h; cases h
        | some r =>
          rw [hr] at h
          cases h
          simp [ih hr]
      | eq => simp only at h; cases h; rfl
      | gt => simp only at h; cases h; rfl

lemma cpqInsert_length {s : CState} : ∀ {q q2 : List CState},
    cpqInsert s q = some q2 → q2.length = q.length + 1 := by
  intro q
  induction q with
  | nil => intro q2 h; cases h; rfl
  | cons t ts ih =>
    intro q2 h
    rw [cpqInsert] at h
    cases hc : cmpCState t s with
    | none => rw [hc] at h; cases h
    | some o =>
      rw [hc] at h
      cases o with
      | lt =>
        simp only at h
        cases hr : cpqInsert s ts with
        | none => rw [hr] at h; cases h
        | some r =>
          rw [hr] at h
          cases h
          simp [ih hr]
      | eq => simp only at h; cases h; rfl
      | gt => simp only at h; cases h; rfl

lemma epushAll_length {cur : EState} : ∀ {fs : List Flight} {q q2 : List EState},
    epushAll cur fs q = some q2 → q2.length ≤ q.length + fs.length := by
  intro fs
  induction fs with
  | nil =>
    intro q q2 h
    rw [epushAll] at h
    cases h
    simp
  | cons f fs ih =>
    intro q q2 h
    rw [epushAll] at h
    by_cases hl : layoverOk cur.time cur.path f = true
    · rw [if_pos hl] at h
      cases hi : epqInsert ⟨f.arrive, f.dest, cur.path ++ [f]⟩ q with
      | none => rw [hi] at h; cases h
      | some q1 =>
        rw [hi] at h
        have := ih h
        have := epqInsert_length hi
        simp only [List.length_cons]
        omega
    · rw [if_neg hl] at h
      have := ih h
      simp only [List.length_cons]
      omega

lemma cpushAll_length {cabin : String} {cur : CState} :
    ∀ {fs : List Flight} {q q2 : List CState},
    cpushAll cabin cur fs q = Except.ok q2 → q2.length ≤ q.length + fs.length := by
  intro fs
  induction fs with
  | nil =>
    intro q q2 h
    rw [cpushAll] at h
    cases h
    simp
  | cons f fs ih =>
    intro q q2 h
    rw [cpushAll] at h
    by_cases hl : layoverOk cur.time cur.path f = true
    · rw [if_pos hl] at h
      cases hp : f.price_for cabin with
      | error m => rw [hp] at h; cases h
      | ok pr =>
        rw [hp] at h
        dsimp only at h
        cases hi : cpqInsert ⟨cur.price + pr, f.arrive, f.dest, cur.path ++ [f]⟩ q with
        | none => rw [hi] at h; cases h
        | some q1 =>
          rw [hi] at h
          have := ih h
          have := cpqInsert_length hi
          simp only [List.length_cons]
          omega
    · rw [if_neg hl] at h
      have := ih h
      simp only [List.length_cons]
      omega

lemma vLookup_vInsert (v : List (String × Int)) (a : String) (t : Int) :
    ∀ b, vLookup (vInsert v a t) b = if a = b then some t else vLookup v b := by
  induction v with
  | nil =>
    intro b
    simp [vInsert, vLookup]
  | cons p rest ih =>
    intro b
    rw [vInsert]
    by_cases hca : p.1 = a
    · rw [if_pos hca, vLookup, vLookup]
      by_cases hcb : p.1 = b
      · rw [if_pos hcb, if_pos (by rw [← hca, hcb])]
      · rw [if_neg hcb, if_neg hcb, if_neg (fun hab : a = b => hcb (by rw [hca, hab]))]
    · rw [if_neg hca, vLookup, vLookup]
      by_cases hcb : p.1 = b
      · rw [if_neg (fun hab : a = b => hca (by rw [hcb, hab])), if_pos hcb, if_pos hcb]
      · rw [if_neg hcb, if_neg hcb, ih b]

lemma graphGet_eq_nil_of_not_mem (g : Graph) :
    ∀ a, a ∉ g.map Prod.fst → graphGet g a = [] := by
  induction g with
  | nil => intro a _; rfl
  | cons p rest ih =>
    intro a ha
    rw [List.map_cons, List.mem_cons] at ha
    push_neg at ha
    rw [graphGet, if_neg (fun hh => ha.1 hh.symm)]
    exact ih a ha.2

lemma graphGet_time (g : Graph) (ht : timeOK g = true) :
    ∀ (a : String) (f : Flight), f ∈ graphGet g a → f.depart ≤ f.arrive := by
  induction g with
  | nil => intro a f hf; simp [graphGet] at hf
  | cons p rest ih =>
    intro a f hf
    rw [timeOK, List.all_cons, Bool.and_eq_true] at ht
    obtain ⟨h1, h2⟩ := ht
    rw [graphGet] at hf
    by_cases hb : p.1 = a
    · rw [if_pos hb] at hf
      rw [List.all_eq_true] at h1
      exact of_decide_eq_true (h1 f hf)
    · rw [if_neg hb] at hf
      exact ih h2 a f hf

lemma graphGet_price (g : Graph) (hp : pricesOK g = true) :
    ∀ (a : String) (f : Flight), f ∈ graphGet g a →
      0 ≤ f.economy ∧ 0 ≤ f.business ∧ 0 ≤ f.first := by
  induction g with
  | nil => intro a f hf; simp [graphGet] at hf
  | cons p rest ih =>
    intro a f hf
    rw [pricesOK, List.all_cons, Bool.and_eq_true] at hp
    rw [graphGet] at hf
    by_cases hb : p.1 = a
    · rw [if_pos hb] at hf
      have h1 := hp.1
      rw [List.all_eq_true] at h1
      have h2 := h1 f hf
      rw [Bool.and_eq_true, Bool.and_eq_true] at h2
      exact ⟨of_decide_eq_true h2.1.1, of_decide_eq_true h2.1.2, of_decide_eq_true h2.2⟩
    · rw [if_neg hb] at hf
      exact ih hp.2 a f hf

lemma price_for_nonneg {f : Flight} {c : String} {pr : Int}
    (hok : f.price_for c = Except.ok pr)
    (hp : 0 ≤ f.economy ∧ 0 ≤ f.business ∧ 0 ≤ f.first) : 0 ≤ pr := by
  rw [Flight.price_for] at hok
  split_ifs at hok <;> cases hok
  · exact hp.1
  · exact hp.2.1
  · exact hp.2.2

lemma layoverOk_depart {t : Int} {p : List Flight} {f : Flight}
    (h : layoverOk t p f = true) : t ≤ f.depart := by
  rw [layoverOk] at h
  split_ifs at h with he
  · exact of_decide_eq_true h
  · have := of_decide_eq_true h
    rw [MIN_LAYOVER_MINUTES] at this
    omega

lemma remBudget_nil (g : Graph) : remBudget g [] = sumOutdegs g := by
  rw [remBudget, sumOutdegs]
  congr 1
  congr 1
  apply List.filter_eq_self.mpr
  intro a _
  rfl

lemma filter_congr_of_agree {l : List String} {p q : String → Bool}
    (h : ∀ a ∈ l, p a = q a) : l.filter p = l.filter q := List.filter_congr h

lemma remBudget_vInsert_not_mem (g : Graph) (visited : List (String × Int))
    (a0 : String) (t : Int) (ha : a0 ∉ g.map Prod.fst) :
    remBudget g (vInsert visited a0 t) = remBudget g visited := by
  rw [remBudget, remBudget]
  congr 1
  congr 1
  apply List.filter_congr
  intro a hmem
  have hne : a0 ≠ a := by
    intro hh
    exact ha (hh ▸ List.dedup_subset _ hmem)
  rw [vLookup_vInsert, if_neg hne]

lemma sum_filter_vInsert_cons {g : Graph} {visited : List (String × Int)}
    {a0 : String} {t : Int} :
    ∀ (l : List String), l.Nodup → a0 ∈ l → vLookup visited a0 = none →
    ((l.filter (fun a => (vLookup (vInsert visited a0 t) a).isNone)).map
      (fun a => (graphGet g a).length)).sum + (graphGet g a0).length =
    ((l.filter (fun a => (vLookup visited a).isNone)).map
      (fun a => (graphGet g a).length)).sum := by
  intro l
  induction l with
  | nil => intro _ hmem; cases hmem
  | cons b rest ih =>
    intro hnd hmem hnone
    rw [List.nodup_cons] at hnd
    rcases List.mem_cons.mp hmem with rfl | hmem2
    · have hnew : (vLookup (vInsert visited a0 t) a0).isNone = false := by
        rw [vLookup_vInsert, if_pos rfl]
        rfl
      have hold : (vLookup visited a0).isNone = true := by
        rw [hnone]; rfl
      rw [List.filter_cons, List.filter_cons, hnew, hold]
      simp only [Bool.false_eq_true, if_neg, not_false_eq_true, if_pos,
        List.map_cons, List.sum_cons]
      have hrest : rest.filter (fun a => (vLookup (vInsert visited a0 t) a).isNone)
          = rest.filter (fun a => (vLookup visited a).isNone) := by
        apply List.filter_congr
        intro a hmem3
        have hba : a0 ≠ a := fun hh => hnd.1 (hh ▸ hmem3)
        rw [vLookup_vInsert, if_neg hba]
      rw [hrest]
      omega
    · have hb : b ≠ a0 := fun hh => hnd.1 (hh ▸ hmem2)
      have hsame : (vLookup (vInsert visited a0 t) b).isNone = (vLookup visited b).isNone := by
        rw [vLookup_vInsert, if_neg (fun hh => hb hh.symm)]
      rw [List.filter_cons, List.filter_cons, hsame]
      by_cases hkeep : (vLookup visited b).isNone = true
      · rw [hkeep]
        simp only [if_pos, List.map_cons, List.sum_cons]
        have := ih hnd.2 hmem2 hnone
        omega
      · rw [Bool.not_eq_true] at hkeep
        rw [hkeep]
        simp only [Bool.false_eq_true, if_neg, not_false_eq_true]
        exact ih hnd.2 hmem2 hnone

lemma remBudget_vInsert_mem (g : Graph) (visited : List (String × Int))
    (a0 : String) (t : Int) (ha : a0 ∈ g.map Prod.fst)
    (hnone : vLookup visited a0 = none) :
    remBudget g (vInsert visited a0 t) + (graphGet g a0).length = remBudget g visited :=
  sum_filter_vInsert_cons ((g.map Prod.fst).dedup) (List.nodup_dedup _)
    (List.mem_dedup.mpr ha) hnone

lemma vSkip_none_of_not {visited : List (String × Int)} {a0 : String} {key : Int}
    (hvle : ∀ v, vLookup visited a0 = some v → v ≤ key)
    (hns : ¬ vSkip visited a0 key = true) : vLookup visited a0 = none := by
  cases hv : vLookup visited a0 with
  | none => rfl
  | some v =>
    exfalso
    apply hns
    rw [vSkip, hv]
    exact decide_eq_true (hvle v hv)

lemma findEarliestAux_no_fuelOut (g : Graph) (d : String) (htime : timeOK g = true) :
    ∀ (fuel : Nat) (heap : List EState) (visited : List (String × Int)),
      List.Pairwise timeLE heap →
      (∀ a v, vLookup visited a = some v → ∀ st ∈ heap, v ≤ st.time) →
      heap.length + remBudget g visited < fuel →
      findEarliestAux g d fuel heap visited ≠ SearchResult.fuelOut := by
  intro fuel
  induction fuel with
  | zero => intro heap visited _ _ hlen; omega
  | succ n ih =>
    intro heap visited hsort hvle hlen
    cases heap with
    | nil =>
      rw [findEarliestAux]
      simp
    | cons st rest =>
      rw [findEarliestAux]
      rw [List.pairwise_cons] at hsort
      split
      · simp
      · split
        · -- stale entry: pop and continue
          refine ih rest visited hsort.2 ?_ ?_
          · intro a v hv x hx
            exact hvle a v hv x (List.mem_cons_of_mem st hx)
          · rw [List.length_cons] at hlen
            omega
        · next hns =>
          split
          · simp
          · next q hq =>
            have hnone : vLookup visited st.airport = none :=
              vSkip_none_of_not
                (fun v hv => hvle st.airport v hv st (List.mem_cons_self st rest)) hns
            have harr : ∀ f ∈ graphGet g st.airport,
                layoverOk st.time st.path f = true → st.time ≤ f.arrive := by
              intro f hf hl
              have h1 := layoverOk_depart hl
              have h2 := graphGet_time g htime st.airport f hf
              omega
            refine ih q (vInsert visited st.airport st.time)
                (epushAll_sorted hsort.2 hq) ?_ ?_
            · intro a v hv x hx
              rw [vLookup_vInsert] at hv
              rcases (epushAll_mem st (graphGet g st.airport) rest q hq x).mp hx with
                hx1 | ⟨f, hf, hl, rfl⟩
              · by_cases hab : st.airport = a
                · rw [if_pos hab] at hv
                  cases hv
                  exact hsort.1 x hx1
                · rw [if_neg hab] at hv
                  exact hvle a v hv x (List.mem_cons_of_mem st hx1)
              · by_cases hab : st.airport = a
                · rw [if_pos hab] at hv
                  cases hv
                  exact harr f hf hl
                · rw [if_neg hab] at hv
                  have hv2 := hvle a v hv st (List.mem_cons_self st rest)
                  have harr2 := harr f hf hl
                  show v ≤ f.arrive
                  omega
            · have hql := epushAll_length hq
              rw [List.length_cons] at hlen
              by_cases hmem : st.airport ∈ g.map Prod.fst
              · have heq := remBudget_vInsert_mem g visited st.airport st.time hmem hnone
                omega
              · have hnil := graphGet_eq_nil_of_not_mem g st.airport hmem
                have heq := remBudget_vInsert_not_mem g visited st.airport st.time hmem
                rw [hnil, List.length_nil] at hql
                omega

lemma findCheapestAux_no_fuelOut (g : Graph) (d cabin : String)
    (hprice : pricesOK g = true) :
    ∀ (fuel : Nat) (heap : List CState) (visited : List (String × Int)),
      List.Pairwise priceLE heap →
      (∀ a v, vLookup visited a = some v → ∀ st ∈ heap, v ≤ st.price) →
      heap.length + remBudget g visited < fuel →
      findCheapestAux g d cabin fuel heap visited ≠ SearchResult.fuelOut := by
  intro fuel
  induction fuel with
  | zero => intro heap visited _ _ hlen; omega
  | succ n ih =>
    intro heap visited hsort hvle hlen
    cases heap with
    | nil =>
      rw [findCheapestAux]
      simp
    | cons st rest =>
      rw [findCheapestAux]
      rw [List.pairwise_cons] at hsort
      split
      · simp
      · split
        · refine ih rest visited hsort.2 ?_ ?_
          · intro a v hv x hx
            exact hvle a v hv x (List.mem_cons_of_mem st hx)
          · rw [List.length_cons] at hlen
            omega
        · next hns =>
          split
          · simp
          · next q hq =>
            have hnone : vLookup visited st.airport = none :=
              vSkip_none_of_not
                (fun v hv => hvle st.airport v hv st (List.mem_cons_self st rest)) hns
            have hpr : ∀ f ∈ graphGet g st.airport, ∀ pr,
                f.price_for cabin = Except.ok pr → st.price ≤ st.price + pr := by
              intro f hf pr hok
              have := price_for_nonneg hok (graphGet_price g hprice st.airport f hf)
              omega
            refine ih q (vInsert visited st.airport st.price)
                (cpushAll_sorted hsort.2 hq) ?_ ?_
            · intro a v hv x hx
              rw [vLookup_vInsert] at hv
              rcases (cpushAll_mem cabin st (graphGet g st.airport) rest q hq x).mp hx with
                hx1 | ⟨f, hf, hl, pr, hok, rfl⟩
              · by_cases hab : st.airport = a
                · rw [if_pos hab] at hv
                  cases hv
                  exact hsort.1 x hx1
                · rw [if_neg hab] at hv
                  exact hvle a v hv x (List.mem_cons_of_mem st hx1)
              · by_cases hab : st.airport = a
                · rw [if_pos hab] at hv
                  cases hv
                  exact hpr f hf pr hok
                · rw [if_neg hab] at hv
                  have hv2 := hvle a v hv st (List.mem_cons_self st rest)
                  have hpr2 := hpr f hf pr hok
                  show v ≤ st.price + pr
                  omega
            · have hql := cpushAll_length hq
              rw [List.length_cons] at hlen
              by_cases hmem : st.airport ∈ g.map Prod.fst
              · have heq := remBudget_vInsert_mem g visited st.airport st.price hmem hnone
                omega
              · have hnil := graphGet_eq_nil_of_not_mem g st.airport hmem
                have heq := remBudget_vInsert_not_mem g visited st.airport st.price hmem
                rw [hnil, List.length_nil] at hql
                omega

/-- Claim C6: on any route graph whose legs satisfy the load invariants
(`depart <= arrive`, non-negative prices), both searches run to completion
within `2 + sumOutdegs g` loop iterations: each airport is expanded at most
once, so the model's fuel is never exhausted. -/
theorem searches_terminate (g : Graph) (s d : String) (e : Int) (c : String)
    (htime : timeOK g = true) (hprice : pricesOK g = true) :
    find_earliest_itinerary g s d e ≠ SearchResult.fuelOut ∧
    find_cheapest_itinerary g s d e c ≠ SearchResult.fuelOut := by
  constructor
  · apply findEarliestAux_no_fuelOut g d htime (searchFuel g)
    · exact List.pairwise_singleton _ _
    · intro a v hv
      rw [vLookup] at hv
      cases hv
    · rw [remBudget_nil, searchFuel, List.length_singleton]
      omega
  · apply findCheapestAux_no_fuelOut g d c hprice (searchFuel g)
    · exact List.pairwise_singleton _ _
    · intro a v hv
      rw [vLookup] at hv
      cases hv
    · rw [remBudget_nil, searchFuel, List.length_singleton]
      omega

/-- Witness for C6 on the spec scenario graph. -/
theorem searches_terminate_witness :
    find_earliest_itinerary scenarioGraph "A" "C" 420 ≠ SearchResult.fuelOut ∧
    find_cheapest_itinerary scenarioGraph "A" "C" 420 "economy" ≠ SearchResult.fuelOut :=
  searches_terminate scenarioGraph "A" "C" 420 "economy" (by decide) (by decide)

/-! ### Development: C2 optimality machinery -/

lemma arrivalFrom_append (q : List Flight) : ∀ (p : List Flight) (t : Int),
    arrivalFrom t (p ++ q) = arrivalFrom (arrivalFrom t p) q := by
  intro p
  induction p with
  | nil => intro t; rfl
  | cons x xs ih => intro t; rw [List.cons_append, arrivalFrom, arrivalFrom, ih]

lemma lastDest_append (q : List Flight) : ∀ (p : List Flight) (s : String),
    lastDest s (p ++ q) = lastDest (lastDest s p) q := by
  intro p
  induction p with
  | nil => intro s; rfl
  | cons x xs ih => intro s; rw [List.cons_append, lastDest, lastDest, ih]

lemma chainFrom_append {q p : List Flight} : ∀ {s : String},
    chainFrom s (p ++ q) = true →
    chainFrom s p = true ∧ chainFrom (lastDest s p) q = true := by
  induction p with
  | nil => intro s h; exact ⟨rfl, h⟩
  | cons x xs ih =>
    intro s h
    rw [List.cons_append, chainFrom, Bool.and_eq_true] at h
    have := ih h.2
    rw [chainFrom, Bool.and_eq_true, lastDest]
    exact ⟨⟨h.1, this.1⟩, this.2⟩

lemma feasibleFrom_append {q : List Flight} : ∀ (p : List Flight) {t : Int} {b : Bool},
    feasibleFrom t b (p ++ q) = true →
    feasibleFrom t b p = true ∧
      feasibleFrom (arrivalFrom t p) (b && p.isEmpty) q = true := by
  intro p
  induction p with
  | nil =>
    intro t b h
    rw [arrivalFrom]
    simp only [List.isEmpty_nil, Bool.and_true]
    exact ⟨rfl, h⟩
  | cons x xs ih =>
    intro t b h
    rw [List.cons_append, feasibleFrom, Bool.and_eq_true] at h
    have := ih h.2
    rw [feasibleFrom, Bool.and_eq_true, arrivalFrom]
    simp only [List.isEmpty_cons, Bool.and_false]
    simp only [Bool.false_and] at this
    exact ⟨⟨h.1, this.1⟩, this.2⟩

lemma inGraphB_append {q p : List Flight} {g : Graph}
    (h : inGraphB g (p ++ q) = true) : inGraphB g p = true ∧ inGraphB g q = true := by
  rw [inGraphB, List.all_append, Bool.and_eq_true] at h
  exact h

lemma arrivalFrom_le_of_feasible {g : Graph} (htime : timeOK g = true) :
    ∀ (q : List Flight) (t : Int) (b : Bool),
      feasibleFrom t b q = true → inGraphB g q = true → t ≤ arrivalFrom t q := by
  intro q
  induction q with
  | nil => intro t b _ _; exact le_refl t
  | cons f q2 ih =>
    intro t b hf hg
    rw [feasibleFrom, Bool.and_eq_true] at hf
    rw [inGraphB, List.all_cons, Bool.and_eq_true] at hg
    have hdep : t ≤ f.depart := by
      rcases hf.1 with h1
      split_ifs at h1 with hb
      · exact of_decide_eq_true h1
      · have := of_decide_eq_true h1
        rw [MIN_LAYOVER_MINUTES] at this
        omega
    have harr : f.depart ≤ f.arrive :=
      graphGet_time g htime f.origin f (of_decide_eq_true hg.1)
    have htail : f.arrive ≤ arrivalFrom f.arrive q2 := ih f.arrive false hf.2 hg.2
    rw [arrivalFrom]
    omega

lemma validJourney_append {g : Graph} {s : String} {e : Int} {p q : List Flight}
    (h : validJourney g s e (p ++ q) = true) :
    validJourney g s e p = true ∧
    chainFrom (lastDest s p) q = true ∧
    feasibleFrom (arrivalFrom e p) (p.isEmpty) q = true ∧
    inGraphB g q = true := by
  rw [validJourney, Bool.and_eq_true, Bool.and_eq_true] at h
  obtain ⟨⟨hc, hf⟩, hg⟩ := h
  obtain ⟨hc1, hc2⟩ := chainFrom_append hc
  obtain ⟨hf1, hf2⟩ := feasibleFrom_append p hf
  obtain ⟨hg1, hg2⟩ := inGraphB_append hg
  rw [validJourney, Bool.and_eq_true, Bool.and_eq_true]
  rw [Bool.true_and] at hf2
  exact ⟨⟨⟨hc1, hf1⟩, hg1⟩, hc2, hf2, hg2⟩

lemma arrivalFrom_prefix_le {g : Graph} {s : String} {e : Int} {p q : List Flight}
    (htime : timeOK g = true) (h : validJourney g s e (p ++ q) = true) :
    arrivalFrom e p ≤ arrivalFrom e (p ++ q) := by
  obtain ⟨_, _, hf, hg⟩ := validJourney_append h
  rw [arrivalFrom_append]
  exact arrivalFrom_le_of_feasible htime q (arrivalFrom e p) p.isEmpty hf hg

lemma chainToHeap (g : Graph) (s d : String) (e : Int) (htime : timeOK g = true)
    (heap : List EState) (visited : List (String × Int))
    (hclos : closP g s d heap visited) :
    ∀ (q p : List Flight), validJourney g s e (p ++ q) = true →
      lastDest s (p ++ q) = d →
      (heapHas heap (lastDest s p) (arrivalFrom e p) ∨
       (visHas visited (lastDest s p) (arrivalFrom e p) ∧ q ≠ [])) →
      ∃ st ∈ heap, st.time ≤ arrivalFrom e (p ++ q) := by
  intro q
  induction q with
  | nil =>
    intro p hval hld hcase
    rcases hcase with ⟨st, hst, _, hle⟩ | ⟨_, hq⟩
    · refine ⟨st, hst, ?_⟩
      rw [List.append_nil]
      exact hle
    · exact absurd rfl hq
  | cons f q2 ih =>
    intro p hval hld hcase
    have hmono : arrivalFrom e p ≤ arrivalFrom e (p ++ f :: q2) :=
      arrivalFrom_prefix_le htime hval
    rcases hcase with ⟨st, hst, _, hle⟩ | ⟨⟨v, hv, hvle⟩, _⟩
    · exact ⟨st, hst, le_trans hle hmono⟩
    · obtain ⟨hvp, hc2, hf2, hg2⟩ := validJourney_append hval
      rw [chainFrom, Bool.and_eq_true] at hc2
      have hforig : f.origin = lastDest s p := beq_iff_eq.mp hc2.1
      have hfin : f ∈ graphGet g (lastDest s p) := by
        rw [inGraphB, List.all_cons, Bool.and_eq_true] at hg2
        have hmem := of_decide_eq_true hg2.1
        rw [hforig] at hmem
        exact hmem
      rw [feasibleFrom, Bool.and_eq_true] at hf2
      have hjunction : v + MIN_LAYOVER_MINUTES ≤ f.depart ∨
          (lastDest s p = s ∧ v ≤ f.depart) := by
        have hcond := hf2.1
        by_cases hemp : p.isEmpty = true
        · right
          have hpnil : p = [] := by
            cases hp : p with
            | nil => rfl
            | cons a b => rw [hp] at hemp; simp at hemp
          constructor
          · rw [hpnil]; rfl
          · rw [if_pos hemp] at hcond
            have hd2 := of_decide_eq_true hcond
            rw [hpnil] at hvle
            rw [arrivalFrom] at hvle
            rw [hpnil] at hd2
            rw [arrivalFrom] at hd2
            omega
        · left
          rw [Bool.not_eq_true] at hemp
          rw [hemp] at hcond
          simp only [Bool.false_eq_true, if_neg, not_false_eq_true] at hcond
          have hd2 := of_decide_eq_true hcond
          omega
      rcases hclos (lastDest s p) v hv f hfin hjunction with
        ⟨st, hst, _, hair, harr⟩ | ⟨hnd, v2, hv2, hvle2⟩
      · refine ⟨st, hst, ?_⟩
        have heqarr : arrivalFrom e (p ++ f :: q2) = arrivalFrom f.arrive q2 := by
          rw [arrivalFrom_append]
          rfl
        rw [heqarr]
        have hq2le : f.arrive ≤ arrivalFrom f.arrive q2 := by
          apply arrivalFrom_le_of_feasible htime q2 f.arrive false hf2.2
          rw [inGraphB, List.all_cons, Bool.and_eq_true] at hg2
          exact hg2.2
        omega
      · have hassoc : p ++ f :: q2 = (p ++ [f]) ++ q2 := by simp
        have hval2 : validJourney g s e ((p ++ [f]) ++ q2) = true := by
          rw [← hassoc]; exact hval
        have hld2 : lastDest s ((p ++ [f]) ++ q2) = d := by
          rw [← hassoc]; exact hld
        have hBside : visHas visited (lastDest s (p ++ [f])) (arrivalFrom e (p ++ [f]))
            ∧ q2 ≠ [] := by
          constructor
          · rw [lastDest_snoc, arrivalFrom_snoc]
            exact ⟨v2, hv2, hvle2⟩
          · intro hq2nil
            apply hnd
            rw [hq2nil, List.append_nil, lastDest_snoc] at hld2
            exact hld2
        obtain ⟨st, hst, hle⟩ := ih (p ++ [f]) hval2 hld2 (Or.inr hBside)
        refine ⟨st, hst, ?_⟩
        rw [hassoc]
        exact hle

lemma vSkip_some {visited : List (String × Int)} {a : String} {key : Int}
    (h : vSkip visited a key = true) :
    ∃ v, vLookup visited a = some v ∧ v ≤ key := by
  rw [vSkip] at h
  cases hv : vLookup visited a with
  | none => rw [hv] at h; cases h
  | some v =>
    rw [hv] at h
    exact ⟨v, rfl, of_decide_eq_true h⟩

lemma coveredBound (g : Graph) (s d : String) (e : Int) (htime : timeOK g = true)
    (heap : List EState) (visited : List (String × Int))
    (hclos : closP g s d heap visited)
    (hjinv : jinvP g s e heap visited)
    (hseed : seededP s e heap visited) :
    ∀ fs, validItin g s d e fs = true →
      ∃ st ∈ heap, st.time ≤ arrivalFrom e fs := by
  intro fs hfs
  rw [validItin, Bool.and_eq_true, Bool.and_eq_true] at hfs
  obtain ⟨⟨hval, hne⟩, hend⟩ := hfs
  have hld : lastDest s fs = d := beq_iff_eq.mp hend
  have hfsne : fs ≠ [] := by
    intro hh
    rw [hh] at hne
    simp at hne
  obtain ⟨p, q, heq, hcase⟩ := hjinv fs hval
  subst heq
  rcases hcase with hA | hB
  · exact chainToHeap g s d e htime heap visited hclos q p hval hld (Or.inl hA)
  · by_cases hq : q = []
    · have hvisS : visHas visited s e := by
        rcases hseed with ⟨hv0, _⟩ | ⟨hvs, _⟩
        · exfalso
          obtain ⟨v, hv, _⟩ := hB
          rw [hv0, vLookup] at hv
          cases hv
        · exact ⟨e, hvs, le_refl e⟩
      have hval0 : validJourney g s e ([] ++ (p ++ q)) = true := by
        rw [List.nil_append]
        exact hval
      have hld0 : lastDest s ([] ++ (p ++ q)) = d := by
        rw [List.nil_append]
        exact hld
      have hres := chainToHeap g s d e htime heap visited hclos (p ++ q) [] hval0 hld0
        (Or.inr ⟨hvisS, hfsne⟩)
      rw [List.nil_append] at hres
      exact hres
    · exact chainToHeap g s d e htime heap visited hclos q p hval hld (Or.inr ⟨hB, hq⟩)

lemma findEarliestAux_minimal (g : Graph) (s d : String) (e : Int)
    (hwf : graphWF g = true) (htime : timeOK g = true) :
    ∀ (fuel : Nat) (heap : List EState) (visited : List (String × Int)),
      (∀ st ∈ heap, stateOk g s e st) →
      List.Pairwise timeLE heap →
      (∀ a v, vLookup visited a = some v → ∀ st ∈ heap, v ≤ st.time) →
      seededP s e heap visited →
      closP g s d heap visited →
      jinvP g s e heap visited →
      heap.length + remBudget g visited < fuel →
      (∃ m, findEarliestAux g d fuel heap visited = SearchResult.error m) ∨
      (∃ it, findEarliestAux g d fuel heap visited = SearchResult.found it ∧
        validItin g s d e it.flights = true ∧
        ∀ fs, validItin g s d e fs = true →
          arrivalFrom e it.flights ≤ arrivalFrom e fs) ∨
      (findEarliestAux g d fuel heap visited = SearchResult.notFound ∧
        ∀ fs, validItin g s d e fs = true → False) := by
  intro fuel
  induction fuel with
  | zero =>
    intro heap visited _ _ _ _ _ _ hlen
    exact absurd hlen (by omega)
  | succ n ih =>
    intro heap visited hok hsort hvle hseed hclos hjinv hlen
    cases heap with
    | nil =>
      refine Or.inr (Or.inr ⟨by rw [findEarliestAux], ?_⟩)
      intro fs hfs
      obtain ⟨st, hst, _⟩ :=
        coveredBound g s d e htime [] visited hclos hjinv hseed fs hfs
      cases hst
    | cons st rest =>
      have hokhd := hok st (List.mem_cons_self st rest)
      have hokrest : ∀ x ∈ rest, stateOk g s e x :=
        fun x hx => hok x (List.mem_cons_of_mem st hx)
      rw [List.pairwise_cons] at hsort
      rw [findEarliestAux]
      split
      · next hd =>
        refine Or.inr (Or.inl ⟨⟨st.path⟩, rfl, ?_, ?_⟩)
        · obtain ⟨hval, hair, _⟩ := hokhd
          rw [validItin, Bool.and_eq_true, Bool.and_eq_true]
          refine ⟨⟨hval, ?_⟩, ?_⟩
          · cases hsp : st.path with
            | nil => exact absurd hsp hd.2
            | cons a b => simp
          · rw [beq_iff_eq, ← hair, hd.1]
        · intro fs hfs
          obtain ⟨x, hx, hxle⟩ :=
            coveredBound g s d e htime (st :: rest) visited hclos hjinv hseed fs hfs
          have hstx : st.time ≤ x.time := by
            rcases List.mem_cons.mp hx with rfl | hx2
            · exact le_refl _
            · exact hsort.1 x hx2
          have harr : arrivalFrom e st.path = st.time := hokhd.2.2.symm
          show arrivalFrom e st.path ≤ arrivalFrom e fs
          omega
      · next hd =>
        split
        · next hskip =>
          obtain ⟨v0, hv0, hv0le⟩ := vSkip_some hskip
          have hnotd : st.path ≠ [] → st.airport ≠ d := by
            intro hne hdd
            exact hd ⟨hdd, hne⟩
          refine ih rest visited hokrest hsort.2 ?_ ?_ ?_ ?_ ?_
          · intro a v hv x hx
            exact hvle a v hv x (List.mem_cons_of_mem st hx)
          · rcases hseed with ⟨hv0', _⟩ | ⟨hvs, hall⟩
            · exfalso
              rw [hv0', vLookup] at hv0
              cases hv0
            · exact Or.inr ⟨hvs, fun x hx => hall x (List.mem_cons_of_mem st hx)⟩
          · intro a v hv f hf hcond
            rcases hclos a v hv f hf hcond with ⟨x, hx, hxne, hxair, hxle⟩ | hB
            · rcases List.mem_cons.mp hx with rfl | hx2
              · refine Or.inr ⟨?_, v0, ?_, ?_⟩
                · rw [← hxair]
                  exact hnotd hxne
                · rw [← hxair]
                  exact hv0
                · omega
              · exact Or.inl ⟨x, hx2, hxne, hxair, hxle⟩
            · exact Or.inr hB
          · intro fs hval
            obtain ⟨p, q, heq, hcase⟩ := hjinv fs hval
            refine ⟨p, q, heq, ?_⟩
            rcases hcase with ⟨x, hx, hxair, hxle⟩ | hB
            · rcases List.mem_cons.mp hx with rfl | hx2
              · refine Or.inr ⟨v0, ?_, ?_⟩
                · rw [← hxair]
                  exact hv0
                · omega
              · exact Or.inl ⟨x, hx2, hxair, hxle⟩
            · exact Or.inr hB
          · rw [List.length_cons] at hlen
            omega
        · next hns =>
          split
          · next hq => exact Or.inl ⟨_, rfl⟩
          · next q hq =>
            have hnone : vLookup visited st.airport = none :=
              vSkip_none_of_not
                (fun v hv => hvle st.airport v hv st (List.mem_cons_self st rest)) hns
            have hnotd : st.path ≠ [] → st.airport ≠ d := by
              intro hne hdd
              exact hd ⟨hdd, hne⟩
            have memq := epushAll_mem st (graphGet g st.airport) rest q hq
            have harr : ∀ f ∈ graphGet g st.airport,
                layoverOk st.time st.path f = true → st.time ≤ f.arrive := by
              intro f hf hl
              have h1 := layoverOk_depart hl
              have h2 := graphGet_time g htime st.airport f hf
              omega
            have hrestq : ∀ x ∈ rest, x ∈ q := fun x hx => (memq x).mpr (Or.inl hx)
            have hanots : st.path ≠ [] → st.airport ≠ s := by
              intro hne has
              rcases hseed with ⟨_, hh⟩ | ⟨hvs, _⟩
              · have : st = ⟨e, s, []⟩ := by
                  have := List.cons_eq_cons.mp hh
                  exact this.1
                rw [this] at hne
                exact hne rfl
              · rw [has, hvs] at hnone
                cases hnone
            have hlayover : ∀ f ∈ graphGet g st.airport,
                (st.time + MIN_LAYOVER_MINUTES ≤ f.depart ∨
                  (st.airport = s ∧ st.time ≤ f.depart)) →
                layoverOk st.time st.path f = true := by
              intro f hf hcond
              rw [layoverOk]
              by_cases hemp : st.path.isEmpty = true
              · rw [if_pos hemp]
                apply decide_eq_true
                rw [MIN_LAYOVER_MINUTES] at hcond
                rcases hcond with h1 | ⟨_, h2⟩
                · omega
                · exact h2
              · rw [if_neg hemp]
                apply decide_eq_true
                have hne : st.path ≠ [] := by
                  intro hh
                  rw [hh] at hemp
                  simp at hemp
                rcases hcond with h1 | ⟨has, _⟩
                · exact h1
                · exact absurd has (hanots hne)
            refine ih q (vInsert visited st.airport st.time)
              (fun x hx => ?_) (epushAll_sorted hsort.2 hq) (fun a v hv x hx => ?_)
              ?_ ?_ ?_ ?_
            · rcases (memq x).mp hx with hx1 | ⟨f, hf, hl, rfl⟩
              · exact hokrest x hx1
              · exact pushedStateOk g s e st f hwf hokhd hf hl
            · rw [vLookup_vInsert] at hv
              rcases (memq x).mp hx with hx1 | ⟨f, hf, hl, rfl⟩
              · by_cases hab : st.airport = a
                · rw [if_pos hab] at hv
                  cases hv
                  exact hsort.1 x hx1
                · rw [if_neg hab] at hv
                  exact hvle a v hv x (List.mem_cons_of_mem st hx1)
              · by_cases hab : st.airport = a
                · rw [if_pos hab] at hv
                  cases hv
                  exact harr f hf hl
                · rw [if_neg hab] at hv
                  have hv2 := hvle a v hv st (List.mem_cons_self st rest)
                  have h3 := harr f hf hl
                  show v ≤ f.arrive
                  omega
            · rcases hseed with ⟨hv0, hh⟩ | ⟨hvs, hall⟩
              · have hst0 : st = ⟨e, s, []⟩ := (List.cons_eq_cons.mp hh).1
                refine Or.inr ⟨?_, ?_⟩
                · rw [hv0, hst0]
                  rw [vLookup_vInsert]
                  rw [if_pos rfl]
                · intro x hx
                  rcases (memq x).mp hx with hx1 | ⟨f, hf, hl, rfl⟩
                  · rw [(List.cons_eq_cons.mp hh).2] at hx1
                    cases hx1
                  · simp
              · refine Or.inr ⟨?_, ?_⟩
                · rw [vLookup_vInsert]
                  rw [if_neg (fun hh => hanots (hall st (List.mem_cons_self st rest)) hh)]
                  exact hvs
                · intro x hx
                  rcases (memq x).mp hx with hx1 | ⟨f, hf, hl, rfl⟩
                  · exact hall x (List.mem_cons_of_mem st hx1)
                  · simp
            · intro a v hv f hf hcond
              rw [vLookup_vInsert] at hv
              by_cases hab : st.airport = a
              · subst hab
                rw [if_pos rfl] at hv
                cases hv
                have hlay := hlayover f hf hcond
                refine Or.inl ⟨⟨f.arrive, f.dest, st.path ++ [f]⟩,
                  (memq _).mpr (Or.inr ⟨f, hf, hlay, rfl⟩), ?_, rfl, le_refl _⟩
                simp
              · rw [if_neg hab] at hv
                rcases hclos a v hv f hf hcond with ⟨x, hx, hxne, hxair, hxle⟩ | ⟨hnd, v2, hv2, hvle2⟩
                · rcases List.mem_cons.mp hx with hxst | hx2
                  · rw [hxst] at hxne hxair hxle
                    refine Or.inr ⟨?_, st.time, ?_, ?_⟩
                    · rw [← hxair]
                      exact hnotd hxne
                    · rw [← hxair, vLookup_vInsert, if_pos rfl]
                    · omega
                  · exact Or.inl ⟨x, hrestq x hx2, hxne, hxair, hxle⟩
                · have hfda : f.dest ≠ st.airport := by
                    intro hh
                    rw [hh, hnone] at hv2
                    cases hv2
                  refine Or.inr ⟨hnd, v2, ?_, hvle2⟩
                  rw [vLookup_vInsert, if_neg (fun hh => hfda hh.symm)]
                  exact hv2
            · intro fs hval
              obtain ⟨p, q0, heq, hcase⟩ := hjinv fs hval
              refine ⟨p, q0, heq, ?_⟩
              rcases hcase with ⟨x, hx, hxair, hxle⟩ | ⟨v, hv, hvle'⟩
              · rcases List.mem_cons.mp hx with hxst | hx2
                · rw [hxst] at hxair hxle
                  refine Or.inr ⟨st.time, ?_, ?_⟩
                  · rw [← hxair, vLookup_vInsert, if_pos rfl]
                  · omega
                · exact Or.inl ⟨x, hrestq x hx2, hxair, hxle⟩
              · have hlda : lastDest s p ≠ st.airport := by
                  intro hh
                  rw [hh, hnone] at hv
                  cases hv
                refine Or.inr ⟨v, ?_, hvle'⟩
                rw [vLookup_vInsert, if_neg (fun hh => hlda hh.symm)]
                exact hv
            · have hql := epushAll_length hq
              rw [List.length_cons] at hlen
              by_cases hmem : st.airport ∈ g.map Prod.fst
              · have heq2 := remBudget_vInsert_mem g visited st.airport st.time hmem hnone
                omega
              · have hnil := graphGet_eq_nil_of_not_mem g st.airport hmem
                have heq2 := remBudget_vInsert_not_mem g visited st.airport st.time hmem
                rw [hnil, List.length_nil] at hql
                omega

/-- Claim C2, amended: whenever a constraint-satisfying itinerary exists,
`find_earliest_itinerary` never returns absence: it either aborts with the
tie-comparison `TypeError` (two states with equal arrival time and airport
but different paths cannot be ordered) or returns a constraint-satisfying
itinerary whose final arrival time is minimal over all
constraint-satisfying itineraries. -/
theorem find_earliest_arrival_minimal (g : Graph) (s d : String) (e : Int)
    (hwf : graphWF g = true) (htime : timeOK g = true)
    (hex : ∃ fs, validItin g s d e fs = true) :
    (∃ m, find_earliest_itinerary g s d e = SearchResult.error m) ∨
    (∃ it, find_earliest_itinerary g s d e = SearchResult.found it ∧
      validItin g s d e it.flights = true ∧
      ∀ fs, validItin g s d e fs = true →
        arrivalFrom e it.flights ≤ arrivalFrom e fs) := by
  have hmain := findEarliestAux_minimal g s d e hwf htime (searchFuel g)
    [⟨e, s, []⟩] []
    (by
      intro st hst
      rw [List.mem_singleton] at hst
      rw [hst]
      exact ⟨rfl, rfl, rfl⟩)
    (List.pairwise_singleton _ _)
    (by
      intro a v hv
      rw [vLookup] at hv
      cases hv)
    (Or.inl ⟨rfl, rfl⟩)
    (by
      intro a v hv
      rw [vLookup] at hv
      cases hv)
    (by
      intro fs hval
      exact ⟨[], fs, (List.nil_append fs).symm,
        Or.inl ⟨⟨e, s, []⟩, List.mem_singleton.mpr rfl, rfl, le_refl e⟩⟩)
    (by
      rw [remBudget_nil, searchFuel, List.length_singleton]
      omega)
  rcases hmain with h1 | h2 | ⟨_, hnone⟩
  · exact Or.inl h1
  · exact Or.inr h2
  · obtain ⟨fs, hfs⟩ := hex
    exact (hnone fs hfs).elim

/-- Witness for the amended C2 on the spec scenario graph, where valid
itineraries from `A` to `C` exist. -/
theorem find_earliest_arrival_minimal_witness :
    (∃ m, find_earliest_itinerary scenarioGraph "A" "C" 420 = SearchResult.error m) ∨
    (∃ it, find_earliest_itinerary scenarioGraph "A" "C" 420 = SearchResult.found it ∧
      validItin scenarioGraph "A" "C" 420 it.flights = true ∧
      ∀ fs, validItin scenarioGraph "A" "C" 420 fs = true →
        arrivalFrom 420 it.flights ≤ arrivalFrom 420 fs) :=
  find_earliest_arrival_minimal scenarioGraph "A" "C" 420 (by decide) (by decide)
    ⟨[legAB, legBC], by decide⟩

set_option maxRecDepth 4000

/-- Evaluation facts about two-digit rendering: parsing a padded number in
[0,100) recovers it, and its characters are neither whitespace nor the
colon separator. -/
theorem pad2Facts : ∀ n : Nat, n < 100 →
    pyInt (pad2 (n : Int)) = Except.ok (n : Int) ∧
    (pad2 (n : Int)).all (fun c => !c.isWhitespace && (c != ':')) = true := by decide

lemma dropWhile_ws_eq_self {l : List Char} (h : ∀ c ∈ l, c.isWhitespace = false) :
    l.dropWhile Char.isWhitespace = l := by
  cases l with
  | nil => rfl
  | cons x xs =>
    have hx := h x (List.mem_cons_self x xs)
    simp [List.dropWhile, hx]

lemma pyStrip_eq_self {l : List Char} (h : ∀ c ∈ l, c.isWhitespace = false) :
    pyStrip l = l := by
  unfold pyStrip
  rw [dropWhile_ws_eq_self h]
  rw [dropWhile_ws_eq_self (fun c hc => h c (List.mem_reverse.mp hc))]
  exact List.reverse_reverse l

lemma pySplitOnAux_no_sep (c : Char) (ys : List Char) (acc : List Char)
    (h : ∀ y ∈ ys, y ≠ c) :
    pySplitOnAux c ys acc = [acc.reverse ++ ys] := by
  induction ys generalizing acc with
  | nil => simp [pySplitOnAux]
  | cons y ys ih =>
    have hy : y ≠ c := h y (List.mem_cons_self y ys)
    simp only [pySplitOnAux, if_neg hy]
    rw [ih (y :: acc) (fun z hz => h z (List.mem_cons_of_mem y hz))]
    simp

lemma pySplitOnAux_append (c : Char) (xs ys acc : List Char)
    (h : ∀ x ∈ xs, x ≠ c) :
    pySplitOnAux c (xs ++ c :: ys) acc =
      (acc.reverse ++ xs) :: pySplitOnAux c ys [] := by
  induction xs generalizing acc with
  | nil => simp [pySplitOnAux]
  | cons x xs ih =>
    have hx : x ≠ c := h x (List.mem_cons_self x xs)
    simp only [List.cons_append, pySplitOnAux, if_neg hx, List.append_eq]
    rw [ih (x :: acc) (fun z hz => h z (List.mem_cons_of_mem x hz))]
    simp

lemma parseTime_pad_pair (h mm : Nat) (hh : h < 24) (hm : mm < 60) :
    parseTimeChars (pad2 (h : Int) ++ ':' :: pad2 (mm : Int)) =
      Except.ok ((h : Int) * 60 + (mm : Int)) := by
  have ph := pad2Facts h (by omega)
  have pm := pad2Facts mm (by omega)
  have allh := ph.2
  have allm := pm.2
  rw [List.all_eq_true] at allh allm
  have hws : ∀ x ∈ pad2 (h : Int) ++ ':' :: pad2 (mm : Int), x.isWhitespace = false := by
    intro x hx
    rcases List.mem_append.mp hx with hx1 | hx2
    · have := allh x hx1
      simp only [Bool.and_eq_true, Bool.not_eq_true'] at this
      exact this.1
    · rcases List.mem_cons.mp hx2 with rfl | hx3
      · decide
      · have := allm x hx3
        simp only [Bool.and_eq_true, Bool.not_eq_true'] at this
        exact this.1
  have hsep : ∀ x ∈ pad2 (h : Int), x ≠ ':' := by
    intro x hx
    have := allh x hx
    simp only [Bool.and_eq_true, bne_iff_ne, ne_eq] at this
    exact this.2
  have msep : ∀ x ∈ pad2 (mm : Int), x ≠ ':' := by
    intro x hx
    have := allm x hx
    simp only [Bool.and_eq_true, bne_iff_ne, ne_eq] at this
    exact this.2
  have hcond : (0 : Int) ≤ (h : Int) ∧ (h : Int) < 24 ∧ (0:Int) ≤ (mm : Int) ∧ (mm : Int) < 60 := by
    refine ⟨Int.natCast_nonneg h, ?_, Int.natCast_nonneg mm, ?_⟩ <;> exact_mod_cast (by omega : _)
  unfold parseTimeChars
  rw [pyStrip_eq_self hws]
  unfold pySplitOn
  rw [pySplitOnAux_append ':' _ _ [] hsep]
  rw [pySplitOnAux_no_sep ':' _ [] msep]
  simp only [List.reverse_nil, List.nil_append]
  rw [ph.1, pm.1]
  dsimp only
  rw [if_pos hcond]

/-- Claim C9: for every integer m in [0, 1440), parse_time (format_time m)
returns m: formatting to HH:MM and parsing back is the identity, and
neither side raises. -/
theorem time_roundtrip (m : Int) (h0 : 0 ≤ m) (h1 : m < 1440) :
    parse_time (format_time m) = Except.ok m := by
  lift m to Nat using h0 with k
  have hk : k < 1440 := by exact_mod_cast h1
  have hdiv : Int.fdiv (k : Int) 60 = ((k / 60 : Nat) : Int) := by
    rw [Int.fdiv_eq_ediv _ (by omega : (0:Int) ≤ 60)]
    exact (Int.ofNat_ediv k 60).symm
  have hmod : Int.fmod (k : Int) 60 = ((k % 60 : Nat) : Int) := by
    rw [Int.fmod_eq_emod _ (by omega : (0:Int) ≤ 60)]
    exact (Int.ofNat_emod k 60).symm
  unfold format_time parse_time
  rw [hdiv, hmod]
  have hdata : (String.mk (pad2 ((k / 60 : Nat) : Int) ++ ':' :: pad2 ((k % 60 : Nat) : Int))).data
      = pad2 ((k / 60 : Nat) : Int) ++ ':' :: pad2 ((k % 60 : Nat) : Int) := rfl
  rw [hdata]
  rw [parseTime_pad_pair (k / 60) (k % 60) (by omega) (Nat.mod_lt k (by omega))]
  congr 1
  push_cast
  omega

/-- Witness for C9 at the concrete value 539 (08:59). -/
theorem time_roundtrip_witness : parse_time (format_time 539) = Except.ok 539 :=
  time_roundtrip 539 (by decide) (by decide)

end FlightPlanner
